import Mathlib

/-!
Verification of the trajectory spatial-hash plugin
(`Source/SpatialHashedTrajectory`): a shallow embedding of the Morton codec,
the per-timestep hash table, the incremental builder and the radius-query
pipeline, with theorems checking the natural-language specification against
the code.

Modelling conventions used throughout:
* machine integers (`uint32`, `uint64`, `int32`) are embedded as `ℕ` / `ℤ`;
  wraparound is written out explicitly (`% 2 ^ 32`) where the code relies
  on it;
* floating-point scalars (positions, radii, cell sizes) are embedded as `ℚ`
  with exact arithmetic; the code only ever compares squared distances, so
  the embedding stores squared distances and renders `‖p − q‖ ≤ r` as
  `0 ≤ r ∧ distSq p q ≤ r ^ 2`, which is equivalent for real numbers;
* file I/O is embedded by an explicit file value; success/failure booleans
  of the C++ out-parameter style are kept as `Bool × _` or `Option _`.
-/

set_option maxHeartbeats 4000000

/-! ### Morton codec (`SpatialHashTable.cpp`, `SplitBy3` / `CalculateZOrderKey`) -/

/-- Bit-spread helper from `SpatialHashTable.cpp` (`SplitBy3`): limits the
input to 21 bits and spreads them to every third bit position.  The C++
works in `uint64`; every stage masks with a constant below `2 ^ 61`, so the
`ℕ` value coincides with the `uint64` value (bits at or above position 64
that a shift could produce are removed by the very next mask). -/
def splitBy3 (value : ℕ) : ℕ :=
  let x0 := value &&& 0x1fffff
  let x1 := (x0 ||| x0 <<< 32) &&& 0x1f00000000ffff
  let x2 := (x1 ||| x1 <<< 16) &&& 0x1f0000ff0000ff
  let x3 := (x2 ||| x2 <<< 8) &&& 0x100f00f00f00f00f
  let x4 := (x3 ||| x3 <<< 4) &&& 0x10c30c30c30c30c3
  let x5 := (x4 ||| x4 <<< 2) &&& 0x1249249249249249
  x5

/-- Clamp of a signed cell coordinate into `[0, 2^21 − 1]`, as performed by
`FMath::Clamp(Cell, 0, 0x1fffff)` at the top of `CalculateZOrderKey`. -/
def clampCoord (c : ℤ) : ℤ := max 0 (min c 0x1fffff)

/-- Morton interleave of three already-clamped natural coordinates:
x at bit 0, y at bit 1, z at bit 2, repeating every three bits. -/
def mortonNat (x y z : ℕ) : ℕ :=
  splitBy3 x ||| splitBy3 y <<< 1 ||| splitBy3 z <<< 2

/-- `FSpatialHashTable::CalculateZOrderKey`: clamp each signed coordinate to
`[0, 2^21 − 1]`, then interleave the bits. -/
def calculateZOrderKey (cellX cellY cellZ : ℤ) : ℕ :=
  mortonNat (clampCoord cellX).toNat (clampCoord cellY).toNat (clampCoord cellZ).toNat

/-- Bit view of one mask/shift stage of `SplitBy3`. -/
theorem stageBit (a m s i : ℕ) :
    ((a ||| a <<< s) &&& m).testBit i =
      (m.testBit i && (a.testBit i || (decide (s ≤ i) && a.testBit (i - s)))) := by
  simp [Nat.testBit_land, Nat.testBit_lor, Nat.testBit_shiftLeft, Bool.and_comm, ge_iff_le]

/-- Values below `2 ^ 61` have all bits at positions `≥ 61` clear. -/
theorem highBit_of_le {m : ℕ} (hm : m ≤ 0x1fffffffffffffff) (i : ℕ) (hi : 61 ≤ i) :
    m.testBit i = false := by
  apply Nat.testBit_eq_false_of_lt
  calc m < 2 ^ 61 := by omega
    _ ≤ 2 ^ i := Nat.pow_le_pow_right (by norm_num) hi

/-- Bit characterisation of the stage-1 mask of `SplitBy3`. -/
theorem maskBit1 (i : ℕ) :
    Nat.testBit 0x1f00000000ffff i = decide (i < 16 ∨ (48 ≤ i ∧ i < 53)) := by
  by_cases hi : i < 61
  · interval_cases i <;> decide
  · rw [highBit_of_le (by norm_num) i (by omega)]
    simp; omega

/-- Bit characterisation of the stage-2 mask of `SplitBy3`. -/
theorem maskBit2 (i : ℕ) :
    Nat.testBit 0x1f0000ff0000ff i =
      decide (i < 8 ∨ (24 ≤ i ∧ i < 32) ∨ (48 ≤ i ∧ i < 53)) := by
  by_cases hi : i < 61
  · interval_cases i <;> decide
  · rw [highBit_of_le (by norm_num) i (by omega)]
    simp; omega

/-- Bit characterisation of the stage-3 mask of `SplitBy3`. -/
theorem maskBit3 (i : ℕ) :
    Nat.testBit 0x100f00f00f00f00f i = decide (i % 12 < 4 ∧ i < 61) := by
  by_cases hi : i < 61
  · interval_cases i <;> decide
  · rw [highBit_of_le (by norm_num) i (by omega)]
    simp; omega

/-- Bit characterisation of the stage-4 mask of `SplitBy3`. -/
theorem maskBit4 (i : ℕ) :
    Nat.testBit 0x10c30c30c30c30c3 i = decide (i % 6 < 2 ∧ i < 61) := by
  by_cases hi : i < 61
  · interval_cases i <;> decide
  · rw [highBit_of_le (by norm_num) i (by omega)]
    simp; omega

/-- Bit characterisation of the stage-5 mask of `SplitBy3`. -/
theorem maskBit5 (i : ℕ) :
    Nat.testBit 0x1249249249249249 i = decide (i % 3 = 0 ∧ i < 61) := by
  by_cases hi : i < 61
  · interval_cases i <;> decide
  · rw [highBit_of_le (by norm_num) i (by omega)]
    simp; omega

/-- The staged `SplitBy3` realises the perfect 3-way bit spread: output bit
`i` is input bit `i / 3` when `i` is a multiple of 3 below 63, else 0. -/
theorem testBit_splitBy3 (x i : ℕ) :
    (splitBy3 x).testBit i =
      (decide (i % 3 = 0) && decide (i / 3 < 21) && x.testBit (i / 3)) := by
  have hx0 : ∀ j, (x &&& 0x1fffff).testBit j = (decide (j < 21) && x.testBit j) := by
    intro j
    have h21 : (0x1fffff : ℕ) = 2 ^ 21 - 1 := by norm_num
    rw [h21, Nat.and_pow_two_sub_one_eq_mod, Nat.testBit_mod_two_pow]
  by_cases hi : i < 61
  · unfold splitBy3
    simp only [stageBit, hx0, maskBit1, maskBit2, maskBit3, maskBit4, maskBit5]
    interval_cases i <;> simp
  · push_neg at hi
    have hlhs : (splitBy3 x).testBit i = false := by
      have hb : splitBy3 x ≤ 0x1249249249249249 := Nat.and_le_right
      exact highBit_of_le (le_trans hb (by norm_num)) i hi
    rw [hlhs]
    have : ¬(i % 3 = 0 ∧ i / 3 < 21) := by omega
    rcases Decidable.not_and_iff_or_not.mp this with h | h <;> simp [h]

/-- Bit characterisation of the full interleave `mortonNat`. -/
theorem testBit_mortonNat (x y z i : ℕ) :
    (mortonNat x y z).testBit i =
      ((decide (i % 3 = 0) && decide (i / 3 < 21) && x.testBit (i / 3)) ||
       (decide (i % 3 = 1) && decide (i / 3 < 21) && y.testBit (i / 3)) ||
       (decide (i % 3 = 2) && decide (i / 3 < 21) && z.testBit (i / 3))) := by
  unfold mortonNat
  simp only [Nat.testBit_lor, Nat.testBit_shiftLeft, testBit_splitBy3, ge_iff_le]
  have h3 : i % 3 = 0 ∨ i % 3 = 1 ∨ i % 3 = 2 := by omega
  rcases h3 with h | h | h
  · rcases Nat.eq_zero_or_pos i with rfl | hpos
    · simp
    · have hge : 3 ≤ i := by omega
      have e1 : (i - 1) % 3 = 2 := by omega
      have e2 : (i - 2) % 3 = 1 := by omega
      simp [h, e1, e2]
  · by_cases h1 : i = 1
    · subst h1; simp
    · have hge : 4 ≤ i := by omega
      have e1 : (i - 1) % 3 = 0 := by omega
      have ed1 : (i - 1) / 3 = i / 3 := by omega
      have e2 : (i - 2) % 3 = 2 := by omega
      simp [h, e1, ed1, e2, show (1:ℕ) ≤ i by omega, show (2:ℕ) ≤ i by omega]
  · have hge : 2 ≤ i := by omega
    have e1 : (i - 1) % 3 = 1 := by omega
    have e2 : (i - 2) % 3 = 0 := by omega
    have ed2 : (i - 2) / 3 = i / 3 := by omega
    simp [h, e1, e2, ed2, show (1:ℕ) ≤ i by omega, show (2:ℕ) ≤ i by omega]

/-- Recursive reference form of the 3-way bit spread. -/
def spread3 (n : ℕ) : ℕ :=
  if n = 0 then 0 else n % 2 + 8 * spread3 (n / 2)
termination_by n
decreasing_by exact Nat.div_lt_self (Nat.pos_of_ne_zero (by assumption)) (by norm_num)

theorem spread3_eq (n : ℕ) : spread3 n = n % 2 + 8 * spread3 (n / 2) := by
  rcases Nat.eq_zero_or_pos n with rfl | h
  · simp [spread3]
  · rw [spread3]
    simp [Nat.pos_iff_ne_zero.mp h]

/-- Bit characterisation of `spread3`. -/
theorem testBit_spread3 (n i : ℕ) :
    (spread3 n).testBit i = (decide (i % 3 = 0) && n.testBit (i / 3)) := by
  induction n using Nat.strong_induction_on generalizing i with
  | _ n ih =>
    rcases Nat.eq_zero_or_pos n with rfl | hn
    · simp [spread3, Nat.zero_testBit]
    · rw [spread3_eq]
      have hd : n % 2 < 2 := Nat.mod_lt _ (by norm_num)
      match i with
      | 0 =>
        have : (n % 2 + 8 * spread3 (n / 2)) % 2 = n % 2 := by omega
        simp [Nat.testBit_zero, this]
      | 1 =>
        have : (n % 2 + 8 * spread3 (n / 2)) / 2 % 2 = 0 := by omega
        simp [Nat.testBit_to_div_mod, this]
      | 2 =>
        have : (n % 2 + 8 * spread3 (n / 2)) / 4 % 2 = 0 := by
          omega
        have h4 : (2:ℕ) ^ 2 = 4 := by norm_num
        simp [Nat.testBit_to_div_mod, h4, this]
      | (j + 3) =>
        have hdiv : (n % 2 + 8 * spread3 (n / 2)) / 2 ^ (j + 3) = spread3 (n / 2) / 2 ^ j := by
          have h8 : (2:ℕ) ^ (j + 3) = 8 * 2 ^ j := by ring
          rw [h8, ← Nat.div_div_eq_div_mul]
          congr 1
          omega
        have hrec := ih (n / 2) (Nat.div_lt_self hn (by norm_num)) j
        have hmod : (j + 3) % 3 = j % 3 := by omega
        have hdiv3 : (j + 3) / 3 = j / 3 + 1 := by omega
        rw [Nat.testBit_to_div_mod, hdiv, ← Nat.testBit_to_div_mod, hrec, hmod, hdiv3,
          Nat.testBit_succ]

/-- The staged implementation agrees with the recursive reference spread on
every 21-bit input. -/
theorem splitBy3_eq_spread3 {x : ℕ} (hx : x < 2 ^ 21) : splitBy3 x = spread3 x := by
  apply Nat.eq_of_testBit_eq
  intro i
  rw [testBit_splitBy3, testBit_spread3]
  by_cases hlt : i / 3 < 21
  · simp [hlt]
  · have : x.testBit (i / 3) = false := by
      apply Nat.testBit_eq_false_of_lt
      calc x < 2 ^ 21 := hx
        _ ≤ 2 ^ (i / 3) := Nat.pow_le_pow_right (by norm_num) (by omega)
    simp [this]

/-- The reference spread is strictly monotone. -/
theorem spread3_strictMono {a b : ℕ} (h : a < b) : spread3 a < spread3 b := by
  induction b using Nat.strong_induction_on generalizing a with
  | _ b ih =>
    rcases Nat.lt_or_ge (a / 2) (b / 2) with hhalf | hhalf
    · have hb : 0 < b := by omega
      have hrec := ih (b / 2) (Nat.div_lt_self hb (by norm_num)) hhalf
      calc spread3 a = a % 2 + 8 * spread3 (a / 2) := spread3_eq a
        _ < 8 * (spread3 (a / 2) + 1) := by omega
        _ ≤ 8 * spread3 (b / 2) := by omega
        _ ≤ b % 2 + 8 * spread3 (b / 2) := by omega
        _ = spread3 b := (spread3_eq b).symm
    · have heq : a / 2 = b / 2 := by omega
      have hmod : a % 2 < b % 2 := by omega
      rw [spread3_eq a, spread3_eq b, heq]
      omega

/-- Clamp bound: the clamped coordinate is a natural below `2 ^ 21`. -/
theorem clampCoord_toNat_lt (c : ℤ) : (clampCoord c).toNat < 2 ^ 21 := by
  simp only [clampCoord]
  omega

/-- Under the in-range hypotheses of spec §8 the clamp is the identity. -/
theorem clampCoord_toNat_of_mem {c : ℤ} (h0 : 0 ≤ c) (h1 : c ≤ 0x1fffff) :
    ((clampCoord c).toNat : ℤ) = c := by
  simp only [clampCoord]
  omega

/-- Encoding along the x-axis is the plain spread. -/
theorem mortonNat_x (x : ℕ) : mortonNat x 0 0 = splitBy3 x := by
  have h0 : splitBy3 0 = 0 := by decide
  simp [mortonNat, h0, Nat.zero_shiftLeft]

/-- Encoding along the y-axis is the spread shifted once. -/
theorem mortonNat_y (y : ℕ) : mortonNat 0 y 0 = splitBy3 y <<< 1 := by
  have h0 : splitBy3 0 = 0 := by decide
  simp [mortonNat, h0, Nat.zero_shiftLeft]

/-- Encoding along the z-axis is the spread shifted twice. -/
theorem mortonNat_z (z : ℕ) : mortonNat 0 0 z = splitBy3 z <<< 2 := by
  have h0 : splitBy3 0 = 0 := by decide
  simp [mortonNat, h0, Nat.zero_shiftLeft]

/-- Extraction of one coordinate from an interleaved key. -/
theorem mortonNat_inj {x y z x' y' z' : ℕ}
    (hx : x < 2 ^ 21) (hy : y < 2 ^ 21) (hz : z < 2 ^ 21)
    (hx' : x' < 2 ^ 21) (hy' : y' < 2 ^ 21) (hz' : z' < 2 ^ 21)
    (heq : mortonNat x y z = mortonNat x' y' z') : x = x' ∧ y = y' ∧ z = z' := by
  have hbit : ∀ i, (mortonNat x y z).testBit i = (mortonNat x' y' z').testBit i := by
    intro i; rw [heq]
  have hsmall : ∀ w : ℕ, w < 2 ^ 21 → ∀ j, ¬ j < 21 → w.testBit j = false := by
    intro w hw j hj
    apply Nat.testBit_eq_false_of_lt
    calc w < 2 ^ 21 := hw
      _ ≤ 2 ^ j := Nat.pow_le_pow_right (by norm_num) (by omega)
  refine ⟨Nat.eq_of_testBit_eq fun j => ?_, Nat.eq_of_testBit_eq fun j => ?_,
    Nat.eq_of_testBit_eq fun j => ?_⟩
  · by_cases hj : j < 21
    · have := hbit (3 * j)
      rw [testBit_mortonNat, testBit_mortonNat] at this
      have hm : 3 * j % 3 = 0 := by omega
      have hd : 3 * j / 3 = j := by omega
      simpa [hm, hd, hj] using this
    · rw [hsmall x hx j hj, hsmall x' hx' j hj]
  · by_cases hj : j < 21
    · have := hbit (3 * j + 1)
      rw [testBit_mortonNat, testBit_mortonNat] at this
      have hm0 : ¬ (3 * j + 1) % 3 = 0 := by omega
      have hm1 : (3 * j + 1) % 3 = 1 := by omega
      have hd : (3 * j + 1) / 3 = j := by omega
      simpa [hm0, hm1, hd, hj] using this
    · rw [hsmall y hy j hj, hsmall y' hy' j hj]
  · by_cases hj : j < 21
    · have := hbit (3 * j + 2)
      rw [testBit_mortonNat, testBit_mortonNat] at this
      have hm0 : ¬ (3 * j + 2) % 3 = 0 := by omega
      have hm1 : ¬ (3 * j + 2) % 3 = 1 := by omega
      have hm2 : (3 * j + 2) % 3 = 2 := by omega
      have hd : (3 * j + 2) / 3 = j := by omega
      simpa [hm0, hm1, hm2, hd, hj] using this
    · rw [hsmall z hz j hj, hsmall z' hz' j hj]

/-- C2 — `CalculateZOrderKey`, restricted to coordinates in `[0, 2^21−1]`,
is injective, maps `(0,0,0)` to `0`, is strictly monotonic along each axis
when the other two coordinates are zero, realises the bit interleaving
(bit `i` of `cx` at output bit `3i`, of `cy` at `3i+1`, of `cz` at `3i+2`),
and takes the spec §8 scenario S1 values on the quoted inputs. -/
theorem c2_zOrderKey_encode_correct :
    (∀ x y z x' y' z' : ℤ,
      0 ≤ x → x ≤ 0x1fffff → 0 ≤ y → y ≤ 0x1fffff → 0 ≤ z → z ≤ 0x1fffff →
      0 ≤ x' → x' ≤ 0x1fffff → 0 ≤ y' → y' ≤ 0x1fffff → 0 ≤ z' → z' ≤ 0x1fffff →
      calculateZOrderKey x y z = calculateZOrderKey x' y' z' →
      x = x' ∧ y = y' ∧ z = z') ∧
    calculateZOrderKey 0 0 0 = 0 ∧
    (∀ a b : ℤ, 0 ≤ a → a < b → b ≤ 0x1fffff →
      calculateZOrderKey a 0 0 < calculateZOrderKey b 0 0 ∧
      calculateZOrderKey 0 a 0 < calculateZOrderKey 0 b 0 ∧
      calculateZOrderKey 0 0 a < calculateZOrderKey 0 0 b) ∧
    (∀ x y z : ℤ,
      0 ≤ x → x ≤ 0x1fffff → 0 ≤ y → y ≤ 0x1fffff → 0 ≤ z → z ≤ 0x1fffff →
      ∀ i, i < 21 →
        (calculateZOrderKey x y z).testBit (3 * i) = x.toNat.testBit i ∧
        (calculateZOrderKey x y z).testBit (3 * i + 1) = y.toNat.testBit i ∧
        (calculateZOrderKey x y z).testBit (3 * i + 2) = z.toNat.testBit i) ∧
    calculateZOrderKey 1 0 0 = 1 ∧ calculateZOrderKey 0 1 0 = 2 ∧
    calculateZOrderKey 0 0 1 = 4 ∧ calculateZOrderKey 1 1 1 = 7 ∧
    calculateZOrderKey 2 0 0 = 8 ∧ calculateZOrderKey 3 3 3 = 63 := by
  have hc : ∀ c : ℤ, 0 ≤ c → c ≤ 0x1fffff → (clampCoord c).toNat = c.toNat := by
    intro c h0 h1
    have := clampCoord_toNat_of_mem h0 h1
    omega
  have htn : ∀ c : ℤ, 0 ≤ c → c ≤ 0x1fffff → c.toNat < 2 ^ 21 := by
    intro c h0 h1; omega
  refine ⟨?_, by decide, ?_, ?_, by decide, by decide, by decide, by decide, by decide, by decide⟩
  · intro x y z x' y' z' hx0 hx1 hy0 hy1 hz0 hz1 hx0' hx1' hy0' hy1' hz0' hz1' heq
    unfold calculateZOrderKey at heq
    rw [hc x hx0 hx1, hc y hy0 hy1, hc z hz0 hz1, hc x' hx0' hx1', hc y' hy0' hy1',
      hc z' hz0' hz1'] at heq
    obtain ⟨ex, ey, ez⟩ := mortonNat_inj (htn x hx0 hx1) (htn y hy0 hy1) (htn z hz0 hz1)
      (htn x' hx0' hx1') (htn y' hy0' hy1') (htn z' hz0' hz1') heq
    omega
  · intro a b ha0 hab hb1
    have ha1 : a ≤ 0x1fffff := by omega
    have hb0 : (0:ℤ) ≤ b := by omega
    have hmono : spread3 a.toNat < spread3 b.toNat := spread3_strictMono (by omega)
    have hsa : splitBy3 a.toNat = spread3 a.toNat := splitBy3_eq_spread3 (htn a ha0 ha1)
    have hsb : splitBy3 b.toNat = spread3 b.toNat := splitBy3_eq_spread3 (htn b hb0 hb1)
    have hc0 : (clampCoord 0).toNat = (0:ℕ) := by decide
    refine ⟨?_, ?_, ?_⟩
    · unfold calculateZOrderKey
      rw [hc a ha0 ha1, hc b hb0 hb1, hc0, mortonNat_x, mortonNat_x, hsa, hsb]
      exact hmono
    · unfold calculateZOrderKey
      rw [hc a ha0 ha1, hc b hb0 hb1, hc0, mortonNat_y, mortonNat_y, hsa, hsb,
        Nat.shiftLeft_eq, Nat.shiftLeft_eq]
      have : (2:ℕ) ^ 1 = 2 := by norm_num
      omega
    · unfold calculateZOrderKey
      rw [hc a ha0 ha1, hc b hb0 hb1, hc0, mortonNat_z, mortonNat_z, hsa, hsb,
        Nat.shiftLeft_eq, Nat.shiftLeft_eq]
      have : (2:ℕ) ^ 2 = 4 := by norm_num
      omega
  · intro x y z hx0 hx1 hy0 hy1 hz0 hz1 i hi
    unfold calculateZOrderKey
    rw [hc x hx0 hx1, hc y hy0 hy1, hc z hz0 hz1]
    have hm0 : (3 * i) % 3 = 0 := by omega
    have hd0 : (3 * i) / 3 = i := by omega
    have hm1 : (3 * i + 1) % 3 = 1 := by omega
    have hm1n : ¬ (3 * i + 1) % 3 = 0 := by omega
    have hd1 : (3 * i + 1) / 3 = i := by omega
    have hm2 : (3 * i + 2) % 3 = 2 := by omega
    have hm2n : ¬ (3 * i + 2) % 3 = 0 := by omega
    have hm2n1 : ¬ (3 * i + 2) % 3 = 1 := by omega
    have hd2 : (3 * i + 2) / 3 = i := by omega
    refine ⟨?_, ?_, ?_⟩
    · rw [testBit_mortonNat]; simp [hm0, hd0, hi]
    · rw [testBit_mortonNat]; simp [hm1, hm1n, hd1, hi]
    · rw [testBit_mortonNat]; simp [hm2, hm2n, hm2n1, hd2, hi]

/-- Witness for C2: the theorem applied at concrete in-range inputs. -/
theorem c2_zOrderKey_encode_correct_witness :
    ((0:ℤ) ≤ 2 ∧ (2:ℤ) < 5 ∧ (5:ℤ) ≤ 0x1fffff ∧
      calculateZOrderKey 2 0 0 < calculateZOrderKey 5 0 0) ∧
    calculateZOrderKey 3 3 3 = 63 := by
  refine ⟨⟨by norm_num, by norm_num, by norm_num, ?_⟩,
    c2_zOrderKey_encode_correct.2.2.2.2.2.2.2.2.2⟩
  exact (c2_zOrderKey_encode_correct.2.2.1 2 5 (by norm_num) (by norm_num) (by norm_num)).1

/-- C9 — `CalculateZOrderKey` is total on all signed coordinates: it clamps
each component into `[0, 2^21 − 1]` itself (re-encoding the clamped triple
gives the same key), and the resulting 64-bit key always has bit 63 clear. -/
theorem c9_zOrderKey_clamps_and_top_bit_zero (cx cy cz : ℤ) :
    calculateZOrderKey cx cy cz =
      calculateZOrderKey (clampCoord cx) (clampCoord cy) (clampCoord cz) ∧
    (calculateZOrderKey cx cy cz).testBit 63 = false := by
  constructor
  · unfold calculateZOrderKey
    have hid : ∀ c : ℤ, clampCoord (clampCoord c) = clampCoord c := by
      intro c; simp only [clampCoord]; omega
    rw [hid, hid, hid]
  · unfold calculateZOrderKey
    rw [testBit_mortonNat]
    norm_num

/-! ### Geometry (`FVector`, `WorldToCellCoordinates`, distances)

Positions and scalars are embedded as exact rationals.  `SMALL_NUMBER` is
the engine constant `1.e-8f` (embedded as `10 ^ (-8)`; it only gates the
degenerate cell-size branch). -/

/-- Rational stand-in for `FVector`. -/
structure Vec3 where
  x : ℚ
  y : ℚ
  z : ℚ
deriving DecidableEq, Repr

/-- Engine constant `SMALL_NUMBER`. -/
def smallNumber : ℚ := 1 / 100000000

/-- Computable floor on `ℚ` (`FMath::FloorToInt`); kernel-evaluable form of
`⌊·⌋`. -/
def ratFloor (q : ℚ) : ℤ := q.num / q.den

/-- Computable ceiling on `ℚ` (`FMath::CeilToInt`). -/
def ratCeil (q : ℚ) : ℤ := -ratFloor (-q)

theorem ratFloor_eq (q : ℚ) : ratFloor q = ⌊q⌋ := Rat.floor_def.symm

theorem ratCeil_eq (q : ℚ) : ratCeil q = ⌈q⌉ := by
  rw [ratCeil, ratFloor_eq]
  rfl

/-- `FSpatialHashTable::WorldToCellCoordinates`: per-axis
`FloorToInt((p − bboxMin) / cellSize)`, or `(0,0,0)` for degenerate sizes. -/
def worldToCellCoordinates (worldPos bboxMin : Vec3) (cellSize : ℚ) : ℤ × ℤ × ℤ :=
  if smallNumber < cellSize then
    (ratFloor ((worldPos.x - bboxMin.x) / cellSize),
     ratFloor ((worldPos.y - bboxMin.y) / cellSize),
     ratFloor ((worldPos.z - bboxMin.z) / cellSize))
  else (0, 0, 0)

/-- `FVector::DistSquared`. -/
def distSq (a b : Vec3) : ℚ :=
  (a.x - b.x) ^ 2 + (a.y - b.y) ^ 2 + (a.z - b.z) ^ 2

/-! ### Hash table data model (`SpatialHashTable.h` / `.cpp`) -/

/-- `FSpatialHashHeader` (64 bytes on disk).  The four reserved words are
always zero and are omitted. -/
structure SpatialHashHeader where
  magic : ℕ
  version : ℕ
  timeStep : ℕ
  cellSize : ℚ
  bboxMin : Vec3
  bboxMax : Vec3
  numEntries : ℕ
  numTrajectoryIds : ℕ
deriving DecidableEq, Repr

/-- `FSpatialHashEntry` (16 bytes on disk). -/
structure SpatialHashEntry where
  zOrderKey : ℕ
  startIndex : ℕ
  trajectoryCount : ℕ
deriving DecidableEq, Repr

/-- On-disk hash-table file: the decoded 64-byte header followed by the rest
of the file as 32-bit little-endian words (4 words per 16-byte entry, then
one word per trajectory id).  Byte offset `64 + 4·k` holds word `k`. -/
structure HashFileData where
  header : SpatialHashHeader
  payload : List ℕ
deriving DecidableEq, Repr

/-- In-memory `FSpatialHashTable`; `sourceFile` models `SourceFilePath`
together with the file contents behind it (empty path = `none`). -/
structure SpatialHashTable where
  header : SpatialHashHeader
  entries : List SpatialHashEntry
  trajectoryIds : List ℕ
  sourceFile : Option HashFileData
deriving DecidableEq, Repr

/-- Binary-search loop of `FSpatialHashTable::FindEntry`.  The C++ `while`
loop is embedded with explicit fuel; every iteration shrinks `right − left`
by at least one, so the fuel charged in `findEntry` (list length + 1,
an upper bound on span + 1) is never exhausted. -/
def findEntryGo (entries : List SpatialHashEntry) (key : ℕ) :
    ℕ → ℤ → ℤ → ℤ
  | 0, _, _ => -1
  | fuel + 1, left, right =>
    if left ≤ right then
      let mid := left + (right - left) / 2
      let e := entries.getD mid.toNat ⟨0, 0, 0⟩
      if e.zOrderKey = key then mid
      else if e.zOrderKey < key then findEntryGo entries key fuel (mid + 1) right
      else findEntryGo entries key fuel left (mid - 1)
    else -1

/-- `FSpatialHashTable::FindEntry`: binary search over the sorted entries,
`-1` when the key is absent. -/
def findEntry (t : SpatialHashTable) (key : ℕ) : ℤ :=
  findEntryGo t.entries key (t.entries.length + 1) 0 ((t.entries.length : ℤ) - 1)

/-- Sortedness loop of `FSpatialHashTable::Validate`: every consecutive
pair of entries has strictly ascending keys. -/
def entriesStrictlySorted : List SpatialHashEntry → Bool
  | [] => true
  | [_] => true
  | a :: b :: rest =>
    decide (a.zOrderKey < b.zOrderKey) && entriesStrictlySorted (b :: rest)

/-- The sortedness loop decides the strict chain property. -/
theorem entriesStrictlySorted_iff (l : List SpatialHashEntry) :
    entriesStrictlySorted l = true ↔
      List.Chain' (fun a b => a.zOrderKey < b.zOrderKey) l := by
  induction l with
  | nil => simp [entriesStrictlySorted]
  | cons a l ih =>
    cases l with
    | nil => simp [entriesStrictlySorted]
    | cons b m =>
      rw [List.chain'_cons, ← ih]
      show (decide (a.zOrderKey < b.zOrderKey) &&
        entriesStrictlySorted (b :: m)) = true ↔ _
      simp

/-- `FSpatialHashTable::Validate`, in the order the C++ performs checks:
magic, version, positive cell size, entry count, id count (when resident),
strictly ascending keys, and per-entry slice ranges (against the resident
array when populated, else against the header id count). -/
def validateTable (t : SpatialHashTable) : Bool :=
  decide (t.header.magic = 0x54534854) &&
  decide (t.header.version = 1) &&
  decide (0 < t.header.cellSize) &&
  decide (t.header.numEntries = t.entries.length) &&
  (decide (t.trajectoryIds.length = 0) ||
    decide (t.header.numTrajectoryIds = t.trajectoryIds.length)) &&
  entriesStrictlySorted t.entries &&
  (if 0 < t.trajectoryIds.length then
    t.entries.all fun e =>
      decide (e.startIndex < t.trajectoryIds.length) &&
      decide (e.startIndex + e.trajectoryCount ≤ t.trajectoryIds.length)
  else
    t.entries.all fun e =>
      decide (e.startIndex < t.header.numTrajectoryIds) &&
      decide (e.startIndex + e.trajectoryCount ≤ t.header.numTrajectoryIds))

/-- Unpacked form of a successful `Validate`. -/
theorem validateTable_spec {t : SpatialHashTable} (h : validateTable t = true) :
    t.header.magic = 0x54534854 ∧ t.header.version = 1 ∧ 0 < t.header.cellSize ∧
    t.header.numEntries = t.entries.length ∧
    (t.trajectoryIds.length = 0 ∨ t.header.numTrajectoryIds = t.trajectoryIds.length) ∧
    entriesStrictlySorted t.entries = true ∧
    (∀ e ∈ t.entries, e.startIndex < t.header.numTrajectoryIds ∧
      e.startIndex + e.trajectoryCount ≤ t.header.numTrajectoryIds) := by
  unfold validateTable at h
  simp only [Bool.and_eq_true, Bool.or_eq_true, decide_eq_true_eq] at h
  obtain ⟨⟨⟨⟨⟨⟨h1, h2⟩, h3⟩, h4⟩, h5⟩, h6⟩, h7⟩ := h
  refine ⟨h1, h2, h3, h4, h5, h6, ?_⟩
  intro e he
  by_cases hres : 0 < t.trajectoryIds.length
  · rw [if_pos hres, List.all_eq_true] at h7
    have hn : t.header.numTrajectoryIds = t.trajectoryIds.length := by omega
    have := h7 e he
    simp only [Bool.and_eq_true, decide_eq_true_eq] at this
    omega
  · rw [if_neg hres, List.all_eq_true] at h7
    have := h7 e he
    simp only [Bool.and_eq_true, decide_eq_true_eq] at this
    exact this

/-- `FSpatialHashTable::ReadTrajectoryIdsFromDisk`: range-check against the
header id count, seek to byte `64 + 16·numEntries + 4·startIndex`, read
`count` 32-bit words; fail on missing path, bad range or short read. -/
def readTrajectoryIdsFromDisk (t : SpatialHashTable) (startIndex count : ℕ) :
    Bool × List ℕ :=
  match t.sourceFile with
  | none => (false, [])
  | some f =>
    if count = 0 then (true, [])
    else if t.header.numTrajectoryIds ≤ startIndex ∨
        t.header.numTrajectoryIds < startIndex + count then (false, [])
    else
      let readOffset := 64 + 16 * t.header.numEntries + 4 * startIndex
      let ws := (f.payload.drop ((readOffset - 64) / 4)).take count
      if ws.length = count then (true, ws) else (false, [])

/-- `FSpatialHashTable::GetTrajectoryIdsForCell`: index check, then the
resident-array slice if ids are in memory, else an on-demand disk read.
The C++ returns its result through a `Reset`-then-fill out-parameter; the
pair mirrors (return value, out-array). -/
def getTrajectoryIdsForCell (t : SpatialHashTable) (entryIndex : ℤ) :
    Bool × List ℕ :=
  if entryIndex < 0 ∨ (t.entries.length : ℤ) ≤ entryIndex then (false, [])
  else
    let e := t.entries.getD entryIndex.toNat ⟨0, 0, 0⟩
    if 0 < t.trajectoryIds.length then
      if e.startIndex < t.trajectoryIds.length ∧
          e.startIndex + e.trajectoryCount ≤ t.trajectoryIds.length then
        (true, (t.trajectoryIds.drop e.startIndex).take e.trajectoryCount)
      else (false, [])
    else readTrajectoryIdsFromDisk t e.startIndex e.trajectoryCount

/-- `FSpatialHashTable::QueryAtPosition`: cell, key, binary search, ids. -/
def queryAtPosition (t : SpatialHashTable) (pos : Vec3) : Bool × List ℕ :=
  let c := worldToCellCoordinates pos t.header.bboxMin t.header.cellSize
  let key := calculateZOrderKey c.1 c.2.1 c.2.2
  let idx := findEntry t key
  if 0 ≤ idx then getTrajectoryIdsForCell t idx else (false, [])

/-- Word serialisation of one 16-byte entry (u64 key split little-endian
into two 32-bit words, then start index and count). -/
def entryWords (e : SpatialHashEntry) : List ℕ :=
  [e.zOrderKey % 2 ^ 32, e.zOrderKey / 2 ^ 32 % 2 ^ 32,
   e.startIndex % 2 ^ 32, e.trajectoryCount % 2 ^ 32]

/-- Inverse of `entryWords`, reading 4 words per entry. -/
def parseEntryWords : List ℕ → List SpatialHashEntry
  | a :: b :: c :: d :: rest => ⟨a + 2 ^ 32 * b, c, d⟩ :: parseEntryWords rest
  | _ => []

/-- `FSpatialHashTable::SaveToFile`: validate, then write header, entries
and the resident trajectory ids.  I/O errors are outside the model; the
result is the file that a successful save produces. -/
def saveToFile (t : SpatialHashTable) : Option HashFileData :=
  if validateTable t then
    some ⟨t.header, t.entries.flatMap entryWords ++ t.trajectoryIds.map (· % 2 ^ 32)⟩
  else none

/-- `FSpatialHashTable::LoadFromFile`: read the header, check magic and
version, read `numEntries` entries, leave the trajectory ids unread
(on-demand path recorded), then run full validation. -/
def loadFromFile (f : HashFileData) : Option SpatialHashTable :=
  if f.header.magic = 0x54534854 ∧ f.header.version = 1 then
    let entryRegion := f.payload.take (4 * f.header.numEntries)
    if entryRegion.length = 4 * f.header.numEntries then
      let t : SpatialHashTable := ⟨f.header, parseEntryWords entryRegion, [], some f⟩
      if validateTable t then some t else none
    else none
  else none

/-- Machine-range side conditions carried by the C++ types (`uint64` keys,
`uint32` indices, counts and ids); the `ℕ` embedding states them
explicitly. -/
def wfMachine (t : SpatialHashTable) : Bool :=
  (t.entries.all fun e =>
    decide (e.zOrderKey < 2 ^ 64) && decide (e.startIndex < 2 ^ 32) &&
    decide (e.trajectoryCount < 2 ^ 32)) &&
  t.trajectoryIds.all fun i => decide (i < 2 ^ 32)

/-- Unpacked form of `wfMachine`. -/
theorem wfMachine_spec {t : SpatialHashTable} (h : wfMachine t = true) :
    (∀ e ∈ t.entries, e.zOrderKey < 2 ^ 64 ∧ e.startIndex < 2 ^ 32 ∧
      e.trajectoryCount < 2 ^ 32) ∧ ∀ i ∈ t.trajectoryIds, i < 2 ^ 32 := by
  unfold wfMachine at h
  simp only [Bool.and_eq_true, List.all_eq_true, Bool.and_eq_true,
    decide_eq_true_eq] at h
  exact ⟨fun e he => by have := h.1 e he; tauto, h.2⟩

/-- Entry serialisation contributes four words per entry. -/
theorem length_flatMap_entryWords (l : List SpatialHashEntry) :
    (l.flatMap entryWords).length = 4 * l.length := by
  induction l with
  | nil => simp
  | cons e es ih => simp only [List.flatMap_cons, List.length_append, ih,
      entryWords, List.length_cons, List.length_nil, List.length_cons]; omega

/-- Parsing inverts serialisation for machine-range entries. -/
theorem parseEntryWords_flatMap (l : List SpatialHashEntry)
    (hwf : ∀ e ∈ l, e.zOrderKey < 2 ^ 64 ∧ e.startIndex < 2 ^ 32 ∧
      e.trajectoryCount < 2 ^ 32) :
    parseEntryWords (l.flatMap entryWords) = l := by
  induction l with
  | nil => rfl
  | cons e es ih =>
    have he := hwf e (by simp)
    have hrest : ∀ x ∈ es, x.zOrderKey < 2 ^ 64 ∧ x.startIndex < 2 ^ 32 ∧
        x.trajectoryCount < 2 ^ 32 := fun x hx => hwf x (by simp [hx])
    rw [List.flatMap_cons]
    show parseEntryWords (e.zOrderKey % 2 ^ 32 :: e.zOrderKey / 2 ^ 32 % 2 ^ 32 ::
      e.startIndex % 2 ^ 32 :: e.trajectoryCount % 2 ^ 32 :: es.flatMap entryWords) =
      e :: es
    rw [parseEntryWords, ih hrest]
    have hk : e.zOrderKey % 2 ^ 32 + 2 ^ 32 * (e.zOrderKey / 2 ^ 32 % 2 ^ 32) =
        e.zOrderKey := by omega
    have hs : e.startIndex % 2 ^ 32 = e.startIndex := by omega
    have hc : e.trajectoryCount % 2 ^ 32 = e.trajectoryCount := by omega
    rw [hk, hs, hc]

/-- Reducing ids modulo the word size is the identity in machine range. -/
theorem map_mod_word_id (l : List ℕ) (h : ∀ i ∈ l, i < 2 ^ 32) :
    l.map (· % 2 ^ 32) = l := by
  induction l with
  | nil => rfl
  | cons a as ih =>
    have := h a (by simp)
    simp only [List.map_cons, Nat.mod_eq_of_lt this,
      ih fun i hi => h i (by simp [hi])]

/-- C10 — for every entry index `i < 0` or `i ≥ numEntries`,
`GetTrajectoryIdsForCell` fails and leaves the out-array empty.  The C++
method is `const`, so the table itself (header, entries, ids) is untouched;
the purely functional embedding reflects that. -/
theorem c10_getTrajectoryIdsForCell_invalid_index (t : SpatialHashTable) (i : ℤ)
    (hv : validateTable t = true)
    (hi : i < 0 ∨ (t.header.numEntries : ℤ) ≤ i) :
    getTrajectoryIdsForCell t i = (false, []) := by
  have hn := (validateTable_spec hv).2.2.2.1
  unfold getTrajectoryIdsForCell
  rw [if_pos]
  rcases hi with h | h
  · exact Or.inl h
  · exact Or.inr (by omega)

/-- Concrete single-cell table (spec §8 scenario S2 shrunk): one entry at
key 0 holding trajectory id 1, ids resident. -/
def sampleTable : SpatialHashTable :=
  { header := { magic := 0x54534854, version := 1, timeStep := 0, cellSize := 10,
                bboxMin := ⟨0, 0, 0⟩, bboxMax := ⟨100, 100, 100⟩,
                numEntries := 1, numTrajectoryIds := 1 },
    entries := [⟨0, 0, 1⟩], trajectoryIds := [1], sourceFile := none }

/-- Witness for C10: the theorem applied to `sampleTable` at index 5. -/
theorem c10_getTrajectoryIdsForCell_invalid_index_witness :
    validateTable sampleTable = true ∧
    ((5:ℤ) < 0 ∨ (sampleTable.header.numEntries : ℤ) ≤ 5) ∧
    getTrajectoryIdsForCell sampleTable 5 = (false, []) :=
  ⟨by decide, Or.inr (by decide),
    c10_getTrajectoryIdsForCell_invalid_index sampleTable 5 (by decide)
      (Or.inr (by decide))⟩

/-- C5 counterexample — a validated table whose cell `(0,0,0)` is occupied,
queried at `(−5,−5,−5)`: the position is outside the bounding box and its
cell coordinates are negative, yet the clamp maps them to cell `(0,0,0)`,
whose Morton key IS present, so the query returns the boundary-cell
occupants instead of an empty result. -/
theorem c5_counterexample :
    validateTable sampleTable = true ∧
    (Vec3.mk (-5) (-5) (-5)).x < sampleTable.header.bboxMin.x ∧
    (queryAtPosition sampleTable ⟨-5, -5, -5⟩).2 = [1] ∧
    ¬ (queryAtPosition sampleTable ⟨-5, -5, -5⟩).2 = [] :=
  ⟨of_decide_eq_true (by with_unfolding_all rfl),
   of_decide_eq_true (by with_unfolding_all rfl),
   of_decide_eq_true (by with_unfolding_all rfl),
   of_decide_eq_true (by with_unfolding_all rfl)⟩

/-- C5 amended — `QueryAtPosition` returns empty without error whenever the
Morton key of the (clamped) cell of the query position is absent from the
table; a position outside the bounding box clamps to a boundary cell and
returns that cell's occupants when the key is present. -/
theorem c5_query_amended (t : SpatialHashTable) (pos : Vec3)
    (habsent : findEntry t (calculateZOrderKey
      (worldToCellCoordinates pos t.header.bboxMin t.header.cellSize).1
      (worldToCellCoordinates pos t.header.bboxMin t.header.cellSize).2.1
      (worldToCellCoordinates pos t.header.bboxMin t.header.cellSize).2.2) < 0) :
    queryAtPosition t pos = (false, []) := by
  unfold queryAtPosition
  rw [if_neg]
  omega

/-- Witness for the amended C5: a query far beyond the bounding-box maximum
hits an unoccupied clamped cell and returns empty without error. -/
theorem c5_query_amended_witness :
    findEntry sampleTable (calculateZOrderKey
      (worldToCellCoordinates ⟨250, 5, 5⟩ sampleTable.header.bboxMin
        sampleTable.header.cellSize).1
      (worldToCellCoordinates ⟨250, 5, 5⟩ sampleTable.header.bboxMin
        sampleTable.header.cellSize).2.1
      (worldToCellCoordinates ⟨250, 5, 5⟩ sampleTable.header.bboxMin
        sampleTable.header.cellSize).2.2) < 0 ∧
    queryAtPosition sampleTable ⟨250, 5, 5⟩ = (false, []) :=
  ⟨of_decide_eq_true (by with_unfolding_all rfl),
   c5_query_amended sampleTable ⟨250, 5, 5⟩
     (of_decide_eq_true (by with_unfolding_all rfl))⟩

/-- File written by a successful `SaveToFile` of `t` (header, entry words,
resident ids). -/
def savedFile (t : SpatialHashTable) : HashFileData :=
  ⟨t.header, t.entries.flatMap entryWords ++ t.trajectoryIds⟩

/-- Table produced by `LoadFromFile` on `savedFile t`: same header and
entries, empty id array, on-demand reads backed by the file. -/
def reloadedTable (t : SpatialHashTable) : SpatialHashTable :=
  ⟨t.header, t.entries, [], some (savedFile t)⟩

/-- C3 amended — save-then-load round trip for every validated table whose
trajectory-id array is resident (its length matches the header count):
header and entries are preserved, the loaded table validates, its in-memory
id array stays empty, and every entry's on-demand disk read returns exactly
the id slice the original table held.  (`wfMachine` records the
machine-integer ranges the C++ types enforce.) -/
theorem c3_save_load_roundtrip (t : SpatialHashTable)
    (hv : validateTable t = true)
    (hres : t.trajectoryIds.length = t.header.numTrajectoryIds)
    (hwf : wfMachine t = true) :
    saveToFile t = some (savedFile t) ∧
    loadFromFile (savedFile t) = some (reloadedTable t) ∧
    (reloadedTable t).header = t.header ∧ (reloadedTable t).entries = t.entries ∧
    validateTable (reloadedTable t) = true ∧ (reloadedTable t).trajectoryIds = [] ∧
    ∀ e ∈ t.entries,
      readTrajectoryIdsFromDisk (reloadedTable t) e.startIndex e.trajectoryCount =
        (true, (t.trajectoryIds.drop e.startIndex).take e.trajectoryCount) := by
  obtain ⟨hmg, hver, hcs, hne, hids, hchain, hslice⟩ := validateTable_spec hv
  obtain ⟨hwfE, hwfI⟩ := wfMachine_spec hwf
  have hmap := map_mod_word_id t.trajectoryIds hwfI
  have hEW := length_flatMap_entryWords t.entries
  have hparse := parseEntryWords_flatMap t.entries hwfE
  have hvl : validateTable (reloadedTable t) = true := by
    unfold validateTable reloadedTable
    simp only [List.length_nil, Nat.lt_irrefl, if_false, Bool.and_eq_true,
      Bool.or_eq_true, decide_eq_true_eq, List.all_eq_true]
    exact ⟨⟨⟨⟨⟨⟨hmg, hver⟩, hcs⟩, hne⟩, Or.inl trivial⟩, hchain⟩,
      fun e he => by simpa using hslice e he⟩
  have hsave : saveToFile t = some (savedFile t) := by
    unfold saveToFile savedFile
    rw [if_pos hv, hmap]
  have htk : ((savedFile t).payload).take (4 * (savedFile t).header.numEntries) =
      t.entries.flatMap entryWords := by
    show (t.entries.flatMap entryWords ++ t.trajectoryIds).take
      (4 * t.header.numEntries) = _
    rw [hne, ← hEW, List.take_left]
  have hload : loadFromFile (savedFile t) = some (reloadedTable t) := by
    unfold loadFromFile
    rw [if_pos (show (savedFile t).header.magic = 0x54534854 ∧
      (savedFile t).header.version = 1 from ⟨hmg, hver⟩)]
    rw [htk]
    rw [if_pos (show (t.entries.flatMap entryWords).length =
      4 * (savedFile t).header.numEntries by
        rw [hEW]
        show _ = 4 * t.header.numEntries
        rw [hne])]
    rw [hparse]
    rw [if_pos (show validateTable ⟨(savedFile t).header,
      t.entries, [], some (savedFile t)⟩ = true from hvl)]
    rfl
  refine ⟨hsave, hload, rfl, rfl, hvl, rfl, ?_⟩
  intro e he
  obtain ⟨hs1, hs2⟩ := hslice e he
  show (match (reloadedTable t).sourceFile with
    | none => (false, [])
    | some f =>
      if e.trajectoryCount = 0 then (true, [])
      else if (reloadedTable t).header.numTrajectoryIds ≤ e.startIndex ∨
          (reloadedTable t).header.numTrajectoryIds < e.startIndex + e.trajectoryCount
        then (false, [])
      else
        let readOffset := 64 + 16 * (reloadedTable t).header.numEntries +
          4 * e.startIndex
        let ws := (f.payload.drop ((readOffset - 64) / 4)).take e.trajectoryCount
        if ws.length = e.trajectoryCount then (true, ws) else (false, [])) = _
  show (if e.trajectoryCount = 0 then (true, ([] : List ℕ))
    else if t.header.numTrajectoryIds ≤ e.startIndex ∨
        t.header.numTrajectoryIds < e.startIndex + e.trajectoryCount
      then (false, [])
    else
      let readOffset := 64 + 16 * t.header.numEntries + 4 * e.startIndex
      let ws := ((savedFile t).payload.drop ((readOffset - 64) / 4)).take
        e.trajectoryCount
      if ws.length = e.trajectoryCount then (true, ws) else (false, [])) = _
  by_cases hc0 : e.trajectoryCount = 0
  · rw [if_pos hc0, hc0, List.take_zero]
  · rw [if_neg hc0, if_neg (by omega)]
    have hidx : (64 + 16 * t.header.numEntries + 4 * e.startIndex - 64) / 4 =
        (t.entries.flatMap entryWords).length + e.startIndex := by
      rw [hEW, hne]; omega
    show (if (((savedFile t).payload.drop
        ((64 + 16 * t.header.numEntries + 4 * e.startIndex - 64) / 4)).take
        e.trajectoryCount).length = e.trajectoryCount then _ else _) = _
    rw [hidx]
    show (if (((t.entries.flatMap entryWords ++ t.trajectoryIds).drop
        ((t.entries.flatMap entryWords).length + e.startIndex)).take
        e.trajectoryCount).length = e.trajectoryCount then _ else _) = _
    rw [List.drop_append]
    have hlen : ((t.trajectoryIds.drop e.startIndex).take e.trajectoryCount).length =
        e.trajectoryCount := by
      rw [List.length_take, List.length_drop]
      omega
    rw [if_pos hlen]
    simp only [savedFile, List.drop_append]

/-- Witness for the amended C3: the round trip applied to `sampleTable`. -/
theorem c3_save_load_roundtrip_witness :
    validateTable sampleTable = true ∧
    sampleTable.trajectoryIds.length = sampleTable.header.numTrajectoryIds ∧
    wfMachine sampleTable = true ∧
    (saveToFile sampleTable = some (savedFile sampleTable) ∧
      loadFromFile (savedFile sampleTable) = some (reloadedTable sampleTable) ∧
      (reloadedTable sampleTable).header = sampleTable.header ∧
      (reloadedTable sampleTable).entries = sampleTable.entries ∧
      validateTable (reloadedTable sampleTable) = true ∧
      (reloadedTable sampleTable).trajectoryIds = [] ∧
      ∀ e ∈ sampleTable.entries,
        readTrajectoryIdsFromDisk (reloadedTable sampleTable) e.startIndex
            e.trajectoryCount =
          (true, (sampleTable.trajectoryIds.drop e.startIndex).take
            e.trajectoryCount)) :=
  ⟨by decide, by decide, by decide,
    c3_save_load_roundtrip sampleTable (by decide) (by decide) (by decide)⟩

/-- Table that validates with a non-resident (empty) trajectory-id array
while its header still announces one id: legal per `Validate`, but saving
drops the id payload. -/
def idlessTable : SpatialHashTable :=
  { header := { magic := 0x54534854, version := 1, timeStep := 0, cellSize := 1,
                bboxMin := ⟨0, 0, 0⟩, bboxMax := ⟨1, 1, 1⟩,
                numEntries := 1, numTrajectoryIds := 1 },
    entries := [⟨0, 0, 1⟩], trajectoryIds := [], sourceFile := none }

/-- File produced by saving `idlessTable` (header plus the four entry
words; no id payload). -/
def idlessFile : HashFileData := ⟨idlessTable.header, [0, 0, 0, 1]⟩

/-- Table obtained by loading `idlessFile`. -/
def idlessLoaded : SpatialHashTable :=
  ⟨idlessTable.header, [⟨0, 0, 1⟩], [], some idlessFile⟩

/-- C3 counterexample — `idlessTable` passes validation, yet after
save-then-load the on-demand read of its single entry fails (short read:
the header promises one id but the file carries none), instead of
returning the id slice the table held (the empty slice of its empty
array).  The round-trip claim therefore fails without the resident-ids
hypothesis. -/
theorem c3_counterexample :
    validateTable idlessTable = true ∧
    saveToFile idlessTable = some idlessFile ∧
    loadFromFile idlessFile = some idlessLoaded ∧
    readTrajectoryIdsFromDisk idlessLoaded 0 1 = (false, []) ∧
    ¬ readTrajectoryIdsFromDisk idlessLoaded 0 1 =
        (true, (idlessTable.trajectoryIds.drop 0).take 1) := by
  refine ⟨by decide, by decide, by decide, by decide, by decide⟩

/-! ### Shard store and exact-position fetch
(`USpatialHashTableManager::LoadTrajectorySamplesForIds`)

A shard is modelled as already parsed by the external `TrajectoryData`
loader: its filename timestep (`ParseTimestepFromFilename`), its header
interval size, and per-trajectory position rows.  A `none` position is a
NaN ("missing") sample. -/

/-- One `FShardTrajectoryEntry`. -/
structure ShardEntry where
  trajectoryId : ℕ
  validSampleCount : ℕ
  positions : List (Option Vec3)
deriving DecidableEq, Repr

/-- One parsed shard file. -/
structure Shard where
  startTimeStep : ℤ
  intervalSize : ℤ
  entries : List ShardEntry
deriving DecidableEq, Repr

/-- `FTrajectorySamplePoint`.  The float `Distance` field is embedded as the
squared distance (`some d²`); `none` models the `FLT_MAX` "no matching
query sample" sentinel of Mode C. -/
structure SamplePoint where
  position : Vec3
  timeStep : ℤ
  distanceSq : Option ℚ
deriving DecidableEq, Repr

/-- `TMap<uint32, TArray<FTrajectorySamplePoint>>`, in iteration
(= insertion) order. -/
abbrev SampleMap := List (ℕ × List SamplePoint)

/-- First-match association lookup (`TMap::Find`). -/
def lookupId (m : SampleMap) (id : ℕ) : Option (List SamplePoint) :=
  match m with
  | [] => none
  | p :: rest => if p.1 = id then some p.2 else lookupId rest id

/-- Samples contributed by one shard entry inside `[startTS, endTS]`:
global time step is `shardStart + localIndex`, NaN positions skipped,
`Distance` initialised to 0. -/
def entrySamples (shardStart : ℤ) (e : ShardEntry) (startTS endTS : ℤ) :
    List SamplePoint :=
  e.positions.enum.filterMap fun li =>
    if shardStart + (li.1 : ℤ) < startTS ∨ endTS < shardStart + (li.1 : ℤ) then none
    else match li.2 with
      | none => none
      | some p => some ⟨p, shardStart + (li.1 : ℤ), some 0⟩

/-- `TMap::FindOrAdd` followed by appending sample points. -/
def findOrAddAppend (m : SampleMap) (id : ℕ) (new : List SamplePoint) : SampleMap :=
  if m.any fun p => decide (p.1 = id) then
    m.map fun p => if p.1 = id then (p.1, p.2 ++ new) else p
  else m ++ [(id, new)]

/-- Shard/time-range overlap test of `LoadTrajectorySamplesForIds` (the end
step comes from the header interval size). -/
def shardOverlaps (sh : Shard) (startTS endTS : ℤ) : Bool :=
  !(decide (sh.startTimeStep + sh.intervalSize - 1 < startTS) ||
    decide (endTS < sh.startTimeStep))

/-- Inner loop of `LoadTrajectorySamplesForIds` for one shard: skip
non-overlapping shards, then append every requested entry's in-range
samples. -/
def processShardForIds (ids : List ℕ) (startTS endTS : ℤ) (m : SampleMap)
    (sh : Shard) : SampleMap :=
  if shardOverlaps sh startTS endTS then
    sh.entries.foldl (fun m e =>
      if e.trajectoryId ∈ ids then
        findOrAddAppend m e.trajectoryId (entrySamples sh.startTimeStep e startTS endTS)
      else m) m
  else m

/-- Initialisation loop of `LoadTrajectorySamplesForIds`: one (empty) map
entry per requested id (`TMap::Add` replaces, so duplicates collapse). -/
def initSampleMap (ids : List ℕ) : SampleMap :=
  ids.foldl (fun m id => if m.any fun p => decide (p.1 = id) then m
    else m ++ [(id, [])]) []

/-- `USpatialHashTableManager::LoadTrajectorySamplesForIds`.  Returns
`none` exactly when the function returns `false`: a non-empty request with
no shard files discovered (`GetShardFiles` failure); the loader singleton
is assumed available.  Per-shard load failures are skipped in the C++ and
have no analogue in the parsed-shard model. -/
def loadTrajectorySamplesForIds (shards : List Shard) (trajectoryIds : List ℕ)
    (startTS endTS : ℤ) : Option SampleMap :=
  if trajectoryIds.isEmpty then some []
  else if shards.isEmpty then none
  else some (shards.foldl (processShardForIds trajectoryIds startTS endTS)
    (initSampleMap trajectoryIds))

/-- Reference form of the samples the fetch accumulates for one id: shard
order, then entry order, then local index order. -/
def samplesForId (shards : List Shard) (id : ℕ) (startTS endTS : ℤ) :
    List SamplePoint :=
  shards.foldl (fun acc sh =>
    if shardOverlaps sh startTS endTS then
      acc ++ (sh.entries.filter fun e => decide (e.trajectoryId = id)).flatMap
        fun e => entrySamples sh.startTimeStep e startTS endTS
    else acc) []

/-- First-occurrence deduplication (the key set a `TMap` ends up with). -/
def dedupFirst (l : List ℕ) : List ℕ :=
  l.foldl (fun acc x => if x ∈ acc then acc else acc ++ [x]) []

theorem lookupId_append (m1 m2 : SampleMap) (id : ℕ) :
    lookupId (m1 ++ m2) id =
      match lookupId m1 id with
      | some v => some v
      | none => lookupId m2 id := by
  induction m1 with
  | nil => simp [lookupId]
  | cons p rest ih =>
    by_cases h : p.1 = id
    · simp [lookupId, h]
    · simp [lookupId, h, ih]

theorem any_eq_isSome_lookupId (m : SampleMap) (id : ℕ) :
    (m.any fun p => decide (p.1 = id)) = (lookupId m id).isSome := by
  induction m with
  | nil => simp [lookupId]
  | cons p rest ih =>
    by_cases h : p.1 = id
    · simp [lookupId, h]
    · simp [lookupId, h, ih]

theorem lookupId_mem {m : SampleMap} {id : ℕ} {v : List SamplePoint}
    (h : lookupId m id = some v) : (id, v) ∈ m := by
  induction m with
  | nil => simp [lookupId] at h
  | cons p rest ih =>
    by_cases hp : p.1 = id
    · rw [lookupId, if_pos hp] at h
      obtain ⟨p1, p2⟩ := p
      obtain rfl : p1 = id := hp
      obtain rfl : p2 = v := by injection h
      exact List.mem_cons_self _ _
    · rw [lookupId, if_neg hp] at h
      exact List.mem_cons_of_mem _ (ih h)

theorem mem_lookupId {m : SampleMap} {id : ℕ} {v : List SamplePoint}
    (hnd : (m.map Prod.fst).Nodup) (h : (id, v) ∈ m) : lookupId m id = some v := by
  induction m with
  | nil => simp at h
  | cons p rest ih =>
    rcases List.mem_cons.mp h with rfl | hmem
    · simp [lookupId]
    · have hne : p.1 ≠ id := by
        intro he
        have : id ∈ rest.map Prod.fst := List.mem_map_of_mem Prod.fst hmem
        rw [List.map_cons, List.nodup_cons] at hnd
        exact hnd.1 (he ▸ this)
      rw [lookupId, if_neg hne]
      exact ih (by rw [List.map_cons, List.nodup_cons] at hnd; exact hnd.2) hmem

theorem keys_findOrAddAppend_of_mem {m : SampleMap} {id : ℕ}
    (hid : (lookupId m id).isSome) (new : List SamplePoint) :
    (findOrAddAppend m id new).map Prod.fst = m.map Prod.fst := by
  unfold findOrAddAppend
  rw [any_eq_isSome_lookupId, hid]
  simp only [if_pos]
  rw [List.map_map]
  apply List.map_congr_left
  intro p _
  by_cases h : p.1 = id <;> simp [h]

theorem lookupId_map_update_ne (m : SampleMap) (id : ℕ) (new : List SamplePoint)
    (id' : ℕ) (h : id' ≠ id) :
    lookupId (m.map fun p => if p.1 = id then (p.1, p.2 ++ new) else p) id' =
      lookupId m id' := by
  induction m with
  | nil => rfl
  | cons p rest ih =>
    by_cases hp : p.1 = id
    · have hne : p.1 ≠ id' := by rw [hp]; exact fun he => h he.symm
      simp only [List.map_cons, if_pos hp, lookupId, if_neg hne, ih]
    · by_cases hq : p.1 = id'
      · simp only [List.map_cons, if_neg hp, lookupId, if_pos hq]
      · simp only [List.map_cons, if_neg hp, lookupId, if_neg hq, ih]

theorem lookupId_map_update_eq (m : SampleMap) (id : ℕ) (new : List SamplePoint)
    (l : List SamplePoint) (h : lookupId m id = some l) :
    lookupId (m.map fun p => if p.1 = id then (p.1, p.2 ++ new) else p) id =
      some (l ++ new) := by
  induction m with
  | nil => simp [lookupId] at h
  | cons p rest ih =>
    by_cases hp : p.1 = id
    · rw [lookupId, if_pos hp] at h
      obtain rfl : p.2 = l := by injection h
      simp [lookupId, hp]
    · rw [lookupId, if_neg hp] at h
      simp [lookupId, hp, ih h]

theorem lookupId_findOrAddAppend (m : SampleMap) (id : ℕ)
    (new : List SamplePoint) (id' : ℕ) :
    lookupId (findOrAddAppend m id new) id' =
      if id' = id then
        match lookupId m id with
        | some l => some (l ++ new)
        | none => some new
      else lookupId m id' := by
  unfold findOrAddAppend
  rw [any_eq_isSome_lookupId]
  rcases hL : lookupId m id with _ | l
  · rw [if_neg (by simp), lookupId_append]
    by_cases h : id' = id
    · subst h
      rw [hL]
      simp [lookupId]
    · rw [if_neg h]
      rcases hL' : lookupId m id' with _ | l'
      · simp only [lookupId, if_neg (fun he => h he.symm : ¬ id = id')]
      · rfl
  · rw [if_pos (by simp)]
    by_cases h : id' = id
    · subst h
      rw [if_pos rfl, lookupId_map_update_eq m id' new l hL]
    · rw [if_neg h, lookupId_map_update_ne m id new id' h]

theorem isSome_lookupId_iff_mem (m : SampleMap) (id : ℕ) :
    (lookupId m id).isSome = true ↔ id ∈ m.map Prod.fst := by
  induction m with
  | nil => simp [lookupId]
  | cons p rest ih =>
    by_cases h : p.1 = id
    · simp [lookupId, h, eq_comm]
    · simp only [lookupId, if_neg h, List.map_cons, List.mem_cons, ih]
      constructor
      · exact fun hh => Or.inr hh
      · rintro (rfl | hh)
        · exact absurd rfl h
        · exact hh

theorem mem_dedupGo (l : List ℕ) (acc : List ℕ) (x : ℕ) :
    x ∈ l.foldl (fun acc y => if y ∈ acc then acc else acc ++ [y]) acc ↔
      x ∈ acc ∨ x ∈ l := by
  induction l generalizing acc with
  | nil => simp
  | cons y rest ih =>
    rw [List.foldl_cons, ih]
    by_cases h : y ∈ acc
    · rw [if_pos h]
      constructor
      · tauto
      · rintro (h1 | h2)
        · exact Or.inl h1
        · rcases List.mem_cons.mp h2 with rfl | h3
          · exact Or.inl h
          · exact Or.inr h3
    · rw [if_neg h]
      simp only [List.mem_append, List.mem_singleton, List.mem_cons]
      tauto

theorem nodup_dedupGo (l : List ℕ) (acc : List ℕ) (hacc : acc.Nodup) :
    (l.foldl (fun acc y => if y ∈ acc then acc else acc ++ [y]) acc).Nodup := by
  induction l generalizing acc with
  | nil => exact hacc
  | cons y rest ih =>
    rw [List.foldl_cons]
    by_cases h : y ∈ acc
    · rw [if_pos h]; exact ih acc hacc
    · rw [if_neg h]
      exact ih _ (by simp [List.nodup_append, hacc, h])

theorem mem_dedupFirst (l : List ℕ) (x : ℕ) : x ∈ dedupFirst l ↔ x ∈ l := by
  unfold dedupFirst
  rw [mem_dedupGo]
  simp

theorem nodup_dedupFirst (l : List ℕ) : (dedupFirst l).Nodup :=
  nodup_dedupGo l [] List.nodup_nil

theorem any_key_eq_mem (m : SampleMap) (id : ℕ) :
    (m.any fun p => decide (p.1 = id)) = decide (id ∈ m.map Prod.fst) := by
  rw [any_eq_isSome_lookupId]
  rcases h : lookupId m id with _ | v
  · have : ¬ id ∈ m.map Prod.fst := by
      rw [← isSome_lookupId_iff_mem, h]
      simp
    simp [h, this]
  · have : id ∈ m.map Prod.fst := by
      rw [← isSome_lookupId_iff_mem, h]
      rfl
    simp [h, this]

theorem keys_initGo (ids : List ℕ) (m : SampleMap) :
    ((ids.foldl (fun m id => if m.any fun p => decide (p.1 = id) then m
        else m ++ [(id, [])]) m).map Prod.fst) =
      ids.foldl (fun acc x => if x ∈ acc then acc else acc ++ [x])
        (m.map Prod.fst) := by
  induction ids generalizing m with
  | nil => rfl
  | cons x rest ih =>
    rw [List.foldl_cons, List.foldl_cons, ih]
    congr 1
    rw [any_key_eq_mem]
    by_cases h : x ∈ m.map Prod.fst
    · simp [h]
    · simp [h]

theorem keys_initSampleMap (ids : List ℕ) :
    (initSampleMap ids).map Prod.fst = dedupFirst ids :=
  keys_initGo ids []

theorem lookupId_initStep (m : SampleMap) (x id : ℕ) :
    lookupId (if (m.any fun p => decide (p.1 = x)) = true then m
        else m ++ [(x, [])]) id =
      match lookupId m id with
      | some v => some v
      | none => if x = id then some [] else none := by
  rw [any_eq_isSome_lookupId]
  rcases h : lookupId m x with _ | v
  · simp only [Option.isSome_none, Bool.false_eq_true, if_false]
    rw [lookupId_append]
    rcases h2 : lookupId m id with _ | w
    · by_cases hx : x = id
      · simp [lookupId, hx]
      · simp [lookupId, hx]
    · rfl
  · simp only [Option.isSome_some, if_true]
    rcases h2 : lookupId m id with _ | w
    · by_cases hx : x = id
      · rw [hx] at h
        rw [h] at h2
        simp at h2
      · simp [hx]
    · rfl

theorem lookupId_initGo (ids : List ℕ) (m : SampleMap) (id : ℕ) :
    lookupId (ids.foldl (fun m id => if m.any fun p => decide (p.1 = id) then m
        else m ++ [(id, [])]) m) id =
      match lookupId m id with
      | some v => some v
      | none => if id ∈ ids then some [] else none := by
  induction ids generalizing m with
  | nil =>
    rcases h : lookupId m id with _ | v <;> simp [h]
  | cons x rest ih =>
    rw [List.foldl_cons, ih, lookupId_initStep]
    rcases h : lookupId m id with _ | v
    · by_cases hx : x = id
      · simp [hx, List.mem_cons]
      · have hmem : id ∈ x :: rest ↔ id ∈ rest := by
          constructor
          · intro hh
            rcases List.mem_cons.mp hh with rfl | h2
            · exact absurd rfl hx
            · exact h2
          · exact fun hh => List.mem_cons_of_mem _ hh
        simp [hx, hmem]
    · rfl

theorem lookupId_initSampleMap (ids : List ℕ) (id : ℕ) :
    lookupId (initSampleMap ids) id = if id ∈ ids then some [] else none :=
  lookupId_initGo ids [] id

/-- Per-shard contribution to one trajectory's fetched sample list. -/
def shardContribution (sh : Shard) (id : ℕ) (startTS endTS : ℤ) :
    List SamplePoint :=
  if shardOverlaps sh startTS endTS then
    (sh.entries.filter fun e => decide (e.trajectoryId = id)).flatMap
      fun e => entrySamples sh.startTimeStep e startTS endTS
  else []

theorem samplesForId_eq_foldContribution (shards : List Shard) (id : ℕ)
    (startTS endTS : ℤ) :
    samplesForId shards id startTS endTS =
      shards.foldl (fun acc sh => acc ++ shardContribution sh id startTS endTS) [] := by
  unfold samplesForId
  congr 1
  funext acc sh
  unfold shardContribution
  by_cases h : shardOverlaps sh startTS endTS
  · rw [if_pos h, if_pos h]
  · rw [if_neg h, if_neg h, List.append_nil]

theorem foldContribution_append (id : ℕ) (startTS endTS : ℤ) :
    ∀ (l : List Shard) (acc : List SamplePoint),
      l.foldl (fun a sh => a ++ shardContribution sh id startTS endTS) acc =
        acc ++ l.foldl (fun a sh => a ++ shardContribution sh id startTS endTS) [] := by
  intro l
  induction l with
  | nil => intro acc; simp
  | cons sh rest ih =>
    intro acc
    rw [List.foldl_cons, List.foldl_cons, ih, List.nil_append,
      ih (shardContribution sh id startTS endTS), List.append_assoc]

theorem lookupId_entriesFold (ids : List ℕ) (f : ShardEntry → List SamplePoint)
    (entries : List ShardEntry) (id : ℕ) (hid : id ∈ ids) :
    ∀ (m : SampleMap) (l : List SamplePoint), lookupId m id = some l →
    lookupId (entries.foldl (fun m e => if e.trajectoryId ∈ ids then
        findOrAddAppend m e.trajectoryId (f e) else m) m) id =
      some (l ++ (entries.filter fun e => decide (e.trajectoryId = id)).flatMap f) := by
  induction entries with
  | nil => intro m l hl; simpa using hl
  | cons e rest ih =>
    intro m l hl
    rw [List.foldl_cons]
    by_cases he : e.trajectoryId = id
    · rw [if_pos (he ▸ hid)]
      have h2 : lookupId (findOrAddAppend m e.trajectoryId (f e)) id =
          some (l ++ f e) := by
        rw [lookupId_findOrAddAppend, he, if_pos rfl, hl]
      rw [ih _ (l ++ f e) h2]
      simp [List.filter_cons, he]
    · have hstep : ∀ m' : SampleMap, lookupId m' id = some l →
          lookupId (if e.trajectoryId ∈ ids then
            findOrAddAppend m' e.trajectoryId (f e) else m') id = some l := by
        intro m' hl'
        by_cases hmem : e.trajectoryId ∈ ids
        · rw [if_pos hmem, lookupId_findOrAddAppend,
            if_neg (fun hh => he hh.symm)]
          exact hl'
        · rw [if_neg hmem]; exact hl'
      rw [ih _ l (hstep m hl)]
      simp [List.filter_cons, he]

theorem lookupId_processShard (ids : List ℕ) (startTS endTS : ℤ) (sh : Shard)
    (m : SampleMap) (id : ℕ) (hid : id ∈ ids) (l : List SamplePoint)
    (hl : lookupId m id = some l) :
    lookupId (processShardForIds ids startTS endTS m sh) id =
      some (l ++ shardContribution sh id startTS endTS) := by
  unfold processShardForIds shardContribution
  by_cases h : shardOverlaps sh startTS endTS
  · rw [if_pos h, if_pos h]
    exact lookupId_entriesFold ids _ sh.entries id hid m l hl
  · rw [if_neg h, if_neg h, List.append_nil, hl]

theorem keys_entriesFold (ids : List ℕ) (f : ShardEntry → List SamplePoint)
    (entries : List ShardEntry) :
    ∀ (m : SampleMap), (∀ i ∈ ids, i ∈ m.map Prod.fst) →
    ((entries.foldl (fun m e => if e.trajectoryId ∈ ids then
        findOrAddAppend m e.trajectoryId (f e) else m) m).map Prod.fst) =
      m.map Prod.fst := by
  induction entries with
  | nil => intro m _; rfl
  | cons e rest ih =>
    intro m hsub
    rw [List.foldl_cons]
    by_cases hmem : e.trajectoryId ∈ ids
    · rw [if_pos hmem]
      have hkeys : (findOrAddAppend m e.trajectoryId (f e)).map Prod.fst =
          m.map Prod.fst := by
        apply keys_findOrAddAppend_of_mem
        rw [isSome_lookupId_iff_mem]
        exact hsub _ hmem
      rw [ih _ (fun i hi => hkeys ▸ hsub i hi), hkeys]
    · rw [if_neg hmem]
      exact ih m hsub

theorem keys_processShard (ids : List ℕ) (startTS endTS : ℤ) (sh : Shard)
    (m : SampleMap) (hsub : ∀ i ∈ ids, i ∈ m.map Prod.fst) :
    (processShardForIds ids startTS endTS m sh).map Prod.fst = m.map Prod.fst := by
  unfold processShardForIds
  by_cases h : shardOverlaps sh startTS endTS
  · rw [if_pos h]
    exact keys_entriesFold ids _ sh.entries m hsub
  · rw [if_neg h]

theorem keys_shardsFold (ids : List ℕ) (startTS endTS : ℤ) (shards : List Shard) :
    ∀ (m : SampleMap), (∀ i ∈ ids, i ∈ m.map Prod.fst) →
    ((shards.foldl (processShardForIds ids startTS endTS) m).map Prod.fst) =
      m.map Prod.fst := by
  induction shards with
  | nil => intro m _; rfl
  | cons sh rest ih =>
    intro m hsub
    rw [List.foldl_cons]
    have hk := keys_processShard ids startTS endTS sh m hsub
    rw [ih _ (fun i hi => hk ▸ hsub i hi), hk]

theorem lookupId_shardsFold (ids : List ℕ) (startTS endTS : ℤ)
    (shards : List Shard) (id : ℕ) (hid : id ∈ ids) :
    ∀ (m : SampleMap) (l : List SamplePoint), lookupId m id = some l →
    lookupId (shards.foldl (processShardForIds ids startTS endTS) m) id =
      some (l ++ shards.foldl
        (fun acc sh => acc ++ shardContribution sh id startTS endTS) []) := by
  induction shards with
  | nil => intro m l hl; simpa using hl
  | cons sh rest ih =>
    intro m l hl
    rw [List.foldl_cons, List.foldl_cons, List.nil_append]
    have h1 := lookupId_processShard ids startTS endTS sh m id hid l hl
    rw [ih _ _ h1, foldContribution_append id startTS endTS rest
      (shardContribution sh id startTS endTS), List.append_assoc]

/-- Characterisation of a successful sample fetch: its key set is the
requested id set with first occurrences kept, keys are distinct, and each
requested id maps to exactly its reference sample list. -/
theorem loadTrajectorySamplesForIds_spec {shards : List Shard}
    {ids : List ℕ} {startTS endTS : ℤ} {m : SampleMap}
    (h : loadTrajectorySamplesForIds shards ids startTS endTS = some m) :
    m.map Prod.fst = dedupFirst ids ∧ (m.map Prod.fst).Nodup ∧
    ∀ id ∈ ids, lookupId m id = some (samplesForId shards id startTS endTS) := by
  unfold loadTrajectorySamplesForIds at h
  by_cases hids : ids.isEmpty
  · rw [if_pos hids] at h
    obtain rfl : ([] : SampleMap) = m := by injection h
    have : ids = [] := List.isEmpty_iff.mp hids
    subst this
    exact ⟨rfl, List.nodup_nil, by simp⟩
  · rw [if_neg hids] at h
    by_cases hsh : shards.isEmpty
    · rw [if_pos hsh] at h
      simp at h
    · rw [if_neg hsh] at h
      obtain rfl : shards.foldl (processShardForIds ids startTS endTS)
          (initSampleMap ids) = m := by injection h
      have hsub : ∀ i ∈ ids, i ∈ (initSampleMap ids).map Prod.fst := by
        intro i hi
        rw [keys_initSampleMap, mem_dedupFirst]
        exact hi
      have hkeys := keys_shardsFold ids startTS endTS shards _ hsub
      rw [keys_initSampleMap] at hkeys
      refine ⟨hkeys, hkeys ▸ nodup_dedupFirst ids, ?_⟩
      intro id hid
      have hinit : lookupId (initSampleMap ids) id = some [] := by
        rw [lookupId_initSampleMap, if_pos hid]
      rw [lookupId_shardsFold ids startTS endTS shards id hid _ [] hinit,
        List.nil_append, samplesForId_eq_foldContribution]

/-! ### Distance filters and radius queries
(`USpatialHashTableManager::FilterByDistance` / `FilterByDualRadius` /
`QueryRadiusWithDistanceCheck` / `QueryDualRadiusWithDistanceCheck`).
The float `Distance` annotation (`Sqrt(DistanceSquared)`) is embedded as
the squared distance, an order-isomorphic representation. -/

/-- Per-sample body of the `FilterByDistance` loop: keep a sample whose
squared distance is within `radius²`, annotating the `Distance` field
(stored squared; the C++ stores `Sqrt`). -/
def annotateWithin (queryPosition : Vec3) (radius : ℚ) (s : SamplePoint) :
    Option SamplePoint :=
  if distSq queryPosition s.position ≤ radius ^ 2 then
    some { s with distanceSq := some (distSq queryPosition s.position) }
  else none

/-- Per-sample body of the outer-only half of `FilterByDualRadius`
(the `else if` branch). -/
def annotateOuterOnly (queryPosition : Vec3) (innerRadius outerRadius : ℚ)
    (s : SamplePoint) : Option SamplePoint :=
  if distSq queryPosition s.position ≤ innerRadius ^ 2 then none
  else if distSq queryPosition s.position ≤ outerRadius ^ 2 then
    some { s with distanceSq := some (distSq queryPosition s.position) }
  else none

/-- Common per-trajectory skeleton of both filters: map each trajectory's
sample list through the per-sample body and keep the trajectory only when
some sample survived (`if Result.SamplePoints.Num() > 0`). -/
def keepPairs (g : SamplePoint → Option SamplePoint) (data : SampleMap) :
    SampleMap :=
  data.filterMap fun p =>
    if (p.2.filterMap g).isEmpty then none else some (p.1, p.2.filterMap g)

/-- `USpatialHashTableManager::FilterByDistance`. -/
def filterByDistance (queryPosition : Vec3) (radius : ℚ) (data : SampleMap) :
    SampleMap :=
  keepPairs (annotateWithin queryPosition radius) data

/-- `USpatialHashTableManager::FilterByDualRadius` (inner results, then
outer-only results; the C++ fills both arrays in one pass over the map). -/
def filterByDualRadius (queryPosition : Vec3) (innerRadius outerRadius : ℚ)
    (data : SampleMap) : SampleMap × SampleMap :=
  (keepPairs (annotateWithin queryPosition innerRadius) data,
   keepPairs (annotateOuterOnly queryPosition innerRadius outerRadius) data)

theorem mem_keepPairs {g : SamplePoint → Option SamplePoint} {data : SampleMap}
    {pr : ℕ × List SamplePoint} :
    pr ∈ keepPairs g data ↔
      ∃ ss, (pr.1, ss) ∈ data ∧ pr.2 = ss.filterMap g ∧ ¬ ss.filterMap g = [] := by
  unfold keepPairs
  rw [List.mem_filterMap]
  constructor
  · rintro ⟨p, hp, hf⟩
    by_cases he : (p.2.filterMap g).isEmpty
    · rw [if_pos he] at hf
      exact absurd hf (by simp)
    · rw [if_neg he] at hf
      refine ⟨p.2, ?_, ?_, ?_⟩
      · obtain rfl : (p.1, p.2.filterMap g) = pr := by injection hf
        exact hp
      · obtain rfl : (p.1, p.2.filterMap g) = pr := by injection hf
        rfl
      · rw [List.isEmpty_iff] at he
        exact he
  · rintro ⟨ss, hmem, hval, hne⟩
    refine ⟨(pr.1, ss), hmem, ?_⟩
    rw [if_neg (by rw [List.isEmpty_iff]; exact hne)]
    obtain ⟨a, b⟩ := pr
    simp only at hval
    rw [hval]

theorem keys_keepPairs_sublist (g : SamplePoint → Option SamplePoint)
    (data : SampleMap) :
    ((keepPairs g data).map Prod.fst).Sublist (data.map Prod.fst) := by
  induction data with
  | nil => simp [keepPairs]
  | cons p rest ih =>
    unfold keepPairs at ih ⊢
    rw [List.filterMap_cons]
    by_cases he : (p.2.filterMap g).isEmpty
    · rw [if_pos he]
      exact List.Sublist.cons _ ih
    · rw [if_neg he]
      exact List.Sublist.cons₂ _ ih

/-- Integer interval `[lo, hi]` as a list (the `for dx = -cellRadius ..
cellRadius` loops). -/
def rangeInt (lo hi : ℤ) : List ℤ :=
  (List.range (hi + 1 - lo).toNat).map fun (k : ℕ) => lo + (k : ℤ)

theorem mem_rangeInt {lo hi a : ℤ} : a ∈ rangeInt lo hi ↔ lo ≤ a ∧ a ≤ hi := by
  unfold rangeInt
  constructor
  · intro h
    rw [List.mem_map] at h
    obtain ⟨k, hk, hke⟩ := h
    rw [List.mem_range] at hk
    omega
  · intro h
    rw [List.mem_map]
    refine ⟨(a - lo).toNat, ?_, ?_⟩
    · rw [List.mem_range]
      omega
    · omega

/-- Ids stored in the table for one (possibly out-of-range) cell: key,
binary search, on-demand id fetch; empty when the key is absent. -/
def idsAtCell (t : SpatialHashTable) (cx cy cz : ℤ) : List ℕ :=
  let idx := findEntry t (calculateZOrderKey cx cy cz)
  if 0 ≤ idx then (getTrajectoryIdsForCell t idx).2 else []

/-- Modelled from the spec: `FSpatialHashTable::QueryTrajectoryIdsInRadius`
is called by all four query modes but its definition is not among the
repository sources.  Spec §4.7 describes the candidate generation —
`cellRadius = ceil(r / cellSize)`, iterate the `(2·cellRadius+1)³` cells
centred on the query cell, union the entry ids — matching the in-repo
legacy loop `USpatialHashTableManager::QueryFixedRadiusNeighbors`
(`SpatialHashTableManager.cpp`).  The table header is the authoritative
source of `cellSize` and `bboxMin` (spec §4.2); duplicates are not removed
here (the downstream `TMap` key set deduplicates). -/
def queryTrajectoryIdsInRadius (t : SpatialHashTable) (queryPosition : Vec3)
    (radius : ℚ) : List ℕ :=
  (rangeInt (-(ratCeil (radius / t.header.cellSize)))
      (ratCeil (radius / t.header.cellSize))).flatMap fun dx =>
    (rangeInt (-(ratCeil (radius / t.header.cellSize)))
        (ratCeil (radius / t.header.cellSize))).flatMap fun dy =>
      (rangeInt (-(ratCeil (radius / t.header.cellSize)))
          (ratCeil (radius / t.header.cellSize))).flatMap fun dz =>
        idsAtCell t
          ((worldToCellCoordinates queryPosition t.header.bboxMin
              t.header.cellSize).1 + dx)
          ((worldToCellCoordinates queryPosition t.header.bboxMin
              t.header.cellSize).2.1 + dy)
          ((worldToCellCoordinates queryPosition t.header.bboxMin
              t.header.cellSize).2.2 + dz)

/-- `USpatialHashTableManager::QueryRadiusWithDistanceCheck`: candidate ids
from the loaded table (`table?` is the `GetHashTable` result), exact
positions from the shard store restricted to `[timeStep, timeStep]`,
distance filter.  The returned list is the `OutResults` out-array (the C++
return value is its length). -/
def queryRadiusWithDistanceCheck (shards : List Shard)
    (table? : Option SpatialHashTable) (queryPosition : Vec3) (radius : ℚ)
    (timeStep : ℤ) : SampleMap :=
  match table? with
  | none => []
  | some t =>
    if (queryTrajectoryIdsInRadius t queryPosition radius).isEmpty then []
    else match loadTrajectorySamplesForIds shards
        (queryTrajectoryIdsInRadius t queryPosition radius) timeStep timeStep with
      | none => []
      | some data => filterByDistance queryPosition radius data

/-- `USpatialHashTableManager::QueryDualRadiusWithDistanceCheck`: radii
validation, candidates from the outer radius, exact-position fetch, dual
filter.  Result is the pair (inner out-array, outer-only out-array). -/
def queryDualRadiusWithDistanceCheck (shards : List Shard)
    (table? : Option SpatialHashTable) (queryPosition : Vec3)
    (innerRadius outerRadius : ℚ) (timeStep : ℤ) : SampleMap × SampleMap :=
  if innerRadius > outerRadius then ([], [])
  else match table? with
  | none => ([], [])
  | some t =>
    if (queryTrajectoryIdsInRadius t queryPosition outerRadius).isEmpty then ([], [])
    else match loadTrajectorySamplesForIds shards
        (queryTrajectoryIdsInRadius t queryPosition outerRadius) timeStep timeStep with
      | none => ([], [])
      | some data => filterByDualRadius queryPosition innerRadius outerRadius data

/-! ### Candidate-coverage geometry for the radius query (claim C1) -/

theorem ratAbs_le_of_sq_le_sq {u r : ℚ} (hr : 0 ≤ r) (h : u ^ 2 ≤ r ^ 2) :
    |u| ≤ r := by
  nlinarith [sq_abs u, abs_nonneg u]

theorem floor_sub_floor_le_ceil {a b d : ℚ} (h : a - b ≤ d) :
    ⌊a⌋ - ⌊b⌋ ≤ ⌈d⌉ := by
  have h1 : (⌊a⌋ : ℚ) ≤ a := Int.floor_le a
  have h2 : b < (⌊b⌋ : ℚ) + 1 := Int.lt_floor_add_one b
  have hd : d ≤ (⌈d⌉ : ℚ) := Int.le_ceil d
  have hq : (⌊a⌋ : ℚ) - ⌊b⌋ < (⌈d⌉ : ℚ) + 1 := by linarith
  have hz : (⌊a⌋ - ⌊b⌋ : ℤ) < ⌈d⌉ + 1 := by exact_mod_cast hq
  omega

theorem abs_ratFloor_sub_le {a b d : ℚ} (h : |a - b| ≤ d) :
    |ratFloor a - ratFloor b| ≤ ratCeil d := by
  rw [ratFloor_eq, ratFloor_eq, ratCeil_eq]
  rw [abs_le] at h
  rw [abs_le]
  constructor
  · have := floor_sub_floor_le_ceil (show b - a ≤ d by linarith [h.1])
    omega
  · exact floor_sub_floor_le_ceil h.2

/-- Per-axis displacement bounds extracted from a squared-distance bound. -/
theorem axis_bounds {p q : Vec3} {r : ℚ} (hr : 0 ≤ r)
    (h : distSq q p ≤ r ^ 2) :
    |p.x - q.x| ≤ r ∧ |p.y - q.y| ≤ r ∧ |p.z - q.z| ≤ r := by
  unfold distSq at h
  refine ⟨?_, ?_, ?_⟩
  · apply ratAbs_le_of_sq_le_sq hr
    nlinarith [sq_nonneg (q.y - p.y), sq_nonneg (q.z - p.z)]
  · apply ratAbs_le_of_sq_le_sq hr
    nlinarith [sq_nonneg (q.x - p.x), sq_nonneg (q.z - p.z)]
  · apply ratAbs_le_of_sq_le_sq hr
    nlinarith [sq_nonneg (q.x - p.x), sq_nonneg (q.y - p.y)]

/-- Key geometric fact behind the `(2·cellRadius+1)³` candidate loop: axis
displacement at most `r` moves the cell index by at most `ceil(r/cellSize)`. -/
theorem cell_index_shift_le {px qx m cs r : ℚ} (hcs : 0 < cs)
    (h : |px - qx| ≤ r) :
    |ratFloor ((px - m) / cs) - ratFloor ((qx - m) / cs)| ≤ ratCeil (r / cs) := by
  apply abs_ratFloor_sub_le
  rw [div_sub_div_same]
  have he : px - m - (qx - m) = px - qx := by ring
  rw [he, abs_div, abs_of_pos hcs]
  exact div_le_div_of_nonneg_right h hcs.le

/-- A sample whose position is within `r` of the query position has its cell
among the enumerated candidate cells, so its table ids are candidates. -/
theorem mem_queryIds_of_sample {t : SpatialHashTable} {q p : Vec3} {r : ℚ}
    {id : ℕ} (hcs : smallNumber < t.header.cellSize) (hr : 0 ≤ r)
    (hd : distSq q p ≤ r ^ 2)
    (hid : id ∈ idsAtCell t
      (worldToCellCoordinates p t.header.bboxMin t.header.cellSize).1
      (worldToCellCoordinates p t.header.bboxMin t.header.cellSize).2.1
      (worldToCellCoordinates p t.header.bboxMin t.header.cellSize).2.2) :
    id ∈ queryTrajectoryIdsInRadius t q r := by
  have hcs0 : 0 < t.header.cellSize := by
    have : (0 : ℚ) < smallNumber := by norm_num [smallNumber]
    linarith
  obtain ⟨hx, hy, hz⟩ := axis_bounds hr hd
  have hwp : worldToCellCoordinates p t.header.bboxMin t.header.cellSize =
      (ratFloor ((p.x - t.header.bboxMin.x) / t.header.cellSize),
       ratFloor ((p.y - t.header.bboxMin.y) / t.header.cellSize),
       ratFloor ((p.z - t.header.bboxMin.z) / t.header.cellSize)) := by
    unfold worldToCellCoordinates
    rw [if_pos hcs]
  have hwq : worldToCellCoordinates q t.header.bboxMin t.header.cellSize =
      (ratFloor ((q.x - t.header.bboxMin.x) / t.header.cellSize),
       ratFloor ((q.y - t.header.bboxMin.y) / t.header.cellSize),
       ratFloor ((q.z - t.header.bboxMin.z) / t.header.cellSize)) := by
    unfold worldToCellCoordinates
    rw [if_pos hcs]
  have hbx := cell_index_shift_le (m := t.header.bboxMin.x) hcs0 hx
  have hby := cell_index_shift_le (m := t.header.bboxMin.y) hcs0 hy
  have hbz := cell_index_shift_le (m := t.header.bboxMin.z) hcs0 hz
  rw [abs_le] at hbx hby hbz
  unfold queryTrajectoryIdsInRadius
  rw [List.mem_flatMap]
  refine ⟨ratFloor ((p.x - t.header.bboxMin.x) / t.header.cellSize) -
    ratFloor ((q.x - t.header.bboxMin.x) / t.header.cellSize), ?_, ?_⟩
  · rw [mem_rangeInt]
    exact ⟨hbx.1, hbx.2⟩
  rw [List.mem_flatMap]
  refine ⟨ratFloor ((p.y - t.header.bboxMin.y) / t.header.cellSize) -
    ratFloor ((q.y - t.header.bboxMin.y) / t.header.cellSize), ?_, ?_⟩
  · rw [mem_rangeInt]
    exact ⟨hby.1, hby.2⟩
  rw [List.mem_flatMap]
  refine ⟨ratFloor ((p.z - t.header.bboxMin.z) / t.header.cellSize) -
    ratFloor ((q.z - t.header.bboxMin.z) / t.header.cellSize), ?_, ?_⟩
  · rw [mem_rangeInt]
    exact ⟨hbz.1, hbz.2⟩
  rw [hwq]
  have e1 : ratFloor ((q.x - t.header.bboxMin.x) / t.header.cellSize) +
      (ratFloor ((p.x - t.header.bboxMin.x) / t.header.cellSize) -
       ratFloor ((q.x - t.header.bboxMin.x) / t.header.cellSize)) =
      ratFloor ((p.x - t.header.bboxMin.x) / t.header.cellSize) := by ring
  have e2 : ratFloor ((q.y - t.header.bboxMin.y) / t.header.cellSize) +
      (ratFloor ((p.y - t.header.bboxMin.y) / t.header.cellSize) -
       ratFloor ((q.y - t.header.bboxMin.y) / t.header.cellSize)) =
      ratFloor ((p.y - t.header.bboxMin.y) / t.header.cellSize) := by ring
  have e3 : ratFloor ((q.z - t.header.bboxMin.z) / t.header.cellSize) +
      (ratFloor ((p.z - t.header.bboxMin.z) / t.header.cellSize) -
       ratFloor ((q.z - t.header.bboxMin.z) / t.header.cellSize)) =
      ratFloor ((p.z - t.header.bboxMin.z) / t.header.cellSize) := by ring
  rw [e1, e2, e3]
  rw [hwp] at hid
  exact hid

/-- Every accumulated sample traces back to a shard entry. -/
theorem mem_samplesForId {shards : List Shard} {id : ℕ} {a b : ℤ}
    {s : SamplePoint} (h : s ∈ samplesForId shards id a b) :
    ∃ sh ∈ shards, ∃ e ∈ sh.entries, e.trajectoryId = id ∧
      s ∈ entrySamples sh.startTimeStep e a b := by
  rw [samplesForId_eq_foldContribution] at h
  induction shards with
  | nil => simp at h
  | cons sh rest ih =>
    rw [List.foldl_cons, foldContribution_append, List.nil_append,
      List.mem_append] at h
    rcases h with h | h
    · unfold shardContribution at h
      by_cases hov : shardOverlaps sh a b
      · rw [if_pos hov, List.mem_flatMap] at h
        obtain ⟨e, he, hse⟩ := h
        rw [List.mem_filter] at he
        refine ⟨sh, List.mem_cons_self _ _, e, he.1, ?_, hse⟩
        exact of_decide_eq_true he.2
      · rw [if_neg hov] at h
        simp at h
    · obtain ⟨sh', hsh', rest'⟩ := ih h
      exact ⟨sh', List.mem_cons_of_mem _ hsh', rest'⟩

/-- Coverage of the loaded table at time step `ts`: every non-NaN sample any
shard holds at `ts` has its trajectory id stored in the table entry of the
sample's cell.  This is the defining property of a hash table built for `ts`
from the same shard store (spec §4.2/§4.7); it is the hypothesis under which
the candidate generation has no false negatives. -/
def tableCoversAt (t : SpatialHashTable) (shards : List Shard) (ts : ℤ) : Bool :=
  shards.all fun sh => sh.entries.all fun e =>
    (entrySamples sh.startTimeStep e ts ts).all fun s =>
      decide (e.trajectoryId ∈ idsAtCell t
        (worldToCellCoordinates s.position t.header.bboxMin t.header.cellSize).1
        (worldToCellCoordinates s.position t.header.bboxMin t.header.cellSize).2.1
        (worldToCellCoordinates s.position t.header.bboxMin t.header.cellSize).2.2)

theorem tableCoversAt_spec {t : SpatialHashTable} {shards : List Shard} {ts : ℤ}
    (h : tableCoversAt t shards ts = true) :
    ∀ sh ∈ shards, ∀ e ∈ sh.entries, ∀ s ∈ entrySamples sh.startTimeStep e ts ts,
      e.trajectoryId ∈ idsAtCell t
        (worldToCellCoordinates s.position t.header.bboxMin t.header.cellSize).1
        (worldToCellCoordinates s.position t.header.bboxMin t.header.cellSize).2.1
        (worldToCellCoordinates s.position t.header.bboxMin t.header.cellSize).2.2 := by
  intro sh hsh e he s hs
  unfold tableCoversAt at h
  rw [List.all_eq_true] at h
  have h1 := h sh hsh
  rw [List.all_eq_true] at h1
  have h2 := h1 e he
  rw [List.all_eq_true] at h2
  exact of_decide_eq_true (h2 s hs)

/-- C1: for every query point `q`, radius `r ≥ 0` and time step `ts` whose
hash table is loaded (a table covering the shard store at `ts`, with a
non-degenerate cell size, the store non-empty), `QueryRadiusWithDistanceCheck`
returns exactly the set of trajectories having at least one non-NaN sample
`s` at `ts` with `‖s.pos − q‖ ≤ r` — no false negatives — each annotated with
its exact distance, and no trajectory appears twice in the result list. -/
theorem c1_queryRadius_exact (shards : List Shard) (t : SpatialHashTable)
    (q : Vec3) (r : ℚ) (ts : ℤ)
    (hr : 0 ≤ r) (hcs : smallNumber < t.header.cellSize)
    (hsh : shards ≠ [])
    (hcov : tableCoversAt t shards ts = true) :
    (∀ id, id ∈ (queryRadiusWithDistanceCheck shards (some t) q r ts).map
        Prod.fst ↔
      ∃ s ∈ samplesForId shards id ts ts, distSq q s.position ≤ r ^ 2) ∧
    ((queryRadiusWithDistanceCheck shards (some t) q r ts).map Prod.fst).Nodup ∧
    ∀ pr ∈ queryRadiusWithDistanceCheck shards (some t) q r ts, ∀ s ∈ pr.2,
      s.distanceSq = some (distSq q s.position) ∧ distSq q s.position ≤ r ^ 2 := by
  have hcand : ∀ (id : ℕ) (s : SamplePoint), s ∈ samplesForId shards id ts ts →
      distSq q s.position ≤ r ^ 2 → id ∈ queryTrajectoryIdsInRadius t q r := by
    intro id s hs hd
    obtain ⟨sh, hshm, e, he, hid, hse⟩ := mem_samplesForId hs
    have hcell := tableCoversAt_spec hcov sh hshm e he s hse
    rw [hid] at hcell
    exact mem_queryIds_of_sample hcs hr hd hcell
  have hq : queryRadiusWithDistanceCheck shards (some t) q r ts =
      if (queryTrajectoryIdsInRadius t q r).isEmpty then []
      else match loadTrajectorySamplesForIds shards
          (queryTrajectoryIdsInRadius t q r) ts ts with
        | none => []
        | some data => filterByDistance q r data := rfl
  by_cases hc : (queryTrajectoryIdsInRadius t q r).isEmpty
  · rw [hq, if_pos hc]
    have hcnil : queryTrajectoryIdsInRadius t q r = [] := List.isEmpty_iff.mp hc
    refine ⟨?_, by simp, by simp⟩
    intro id
    simp only [List.map_nil, List.not_mem_nil, false_iff]
    rintro ⟨s, hs, hd⟩
    have hmem := hcand id s hs hd
    rw [hcnil] at hmem
    simp at hmem
  · rw [hq, if_neg hc]
    have hload : loadTrajectorySamplesForIds shards
        (queryTrajectoryIdsInRadius t q r) ts ts =
        some (shards.foldl (processShardForIds
            (queryTrajectoryIdsInRadius t q r) ts ts)
          (initSampleMap (queryTrajectoryIdsInRadius t q r))) := by
      unfold loadTrajectorySamplesForIds
      rw [if_neg hc, if_neg (fun h => hsh (List.isEmpty_iff.mp h))]
    rw [hload]
    obtain ⟨hkeys, hnd, hlook⟩ := loadTrajectorySamplesForIds_spec hload
    show (∀ id, id ∈ (filterByDistance q r (shards.foldl (processShardForIds
        (queryTrajectoryIdsInRadius t q r) ts ts)
        (initSampleMap (queryTrajectoryIdsInRadius t q r)))).map Prod.fst ↔
        ∃ s ∈ samplesForId shards id ts ts, distSq q s.position ≤ r ^ 2) ∧ _ ∧ _
    set data := shards.foldl (processShardForIds
        (queryTrajectoryIdsInRadius t q r) ts ts)
      (initSampleMap (queryTrajectoryIdsInRadius t q r)) with hdataDef
    refine ⟨?_, ?_, ?_⟩
    · intro id
      constructor
      · intro hidk
        rw [List.mem_map] at hidk
        obtain ⟨pr, hpr, hpr1⟩ := hidk
        unfold filterByDistance at hpr
        obtain ⟨ss, hmem, hval, hne⟩ := mem_keepPairs.mp hpr
        have hkm : pr.1 ∈ data.map Prod.fst := by
          rw [List.mem_map]
          exact ⟨(pr.1, ss), hmem, rfl⟩
        have hidc : pr.1 ∈ queryTrajectoryIdsInRadius t q r := by
          rw [hkeys, mem_dedupFirst] at hkm
          exact hkm
        have hl1 : lookupId data pr.1 = some ss := mem_lookupId hnd hmem
        have hl2 := hlook pr.1 hidc
        rw [hl1] at hl2
        have hss : ss = samplesForId shards pr.1 ts ts := by injection hl2
        obtain ⟨y, hy⟩ := List.exists_mem_of_ne_nil _ hne
        obtain ⟨s, hsmem, hsf⟩ := List.mem_filterMap.mp hy
        by_cases hdist : distSq q s.position ≤ r ^ 2
        · rw [← hpr1]
          refine ⟨s, ?_, hdist⟩
          rw [← hss]
          exact hsmem
        · unfold annotateWithin at hsf
          rw [if_neg hdist] at hsf
          exact absurd hsf (by simp)
      · rintro ⟨s, hs, hd⟩
        have hidc : id ∈ queryTrajectoryIdsInRadius t q r := hcand id s hs hd
        have hl := hlook id hidc
        have hmem : (id, samplesForId shards id ts ts) ∈ data := lookupId_mem hl
        have hsome : annotateWithin q r s =
            some { s with distanceSq := some (distSq q s.position) } := by
          unfold annotateWithin
          rw [if_pos hd]
        have hin : { s with distanceSq := some (distSq q s.position) } ∈
            (samplesForId shards id ts ts).filterMap (annotateWithin q r) :=
          List.mem_filterMap.mpr ⟨s, hs, hsome⟩
        have hne := List.ne_nil_of_mem hin
        rw [List.mem_map]
        refine ⟨(id, (samplesForId shards id ts ts).filterMap
          (annotateWithin q r)), ?_, rfl⟩
        unfold filterByDistance
        exact mem_keepPairs.mpr ⟨samplesForId shards id ts ts, hmem, rfl, hne⟩
    · unfold filterByDistance
      exact hnd.sublist (keys_keepPairs_sublist _ _)
    · intro pr hpr s hs
      unfold filterByDistance at hpr
      obtain ⟨ss, hmem, hval, hne⟩ := mem_keepPairs.mp hpr
      rw [hval] at hs
      obtain ⟨s₀, hs₀, hf⟩ := List.mem_filterMap.mp hs
      unfold annotateWithin at hf
      by_cases hdist : distSq q s₀.position ≤ r ^ 2
      · rw [if_pos hdist] at hf
        have hse : { s₀ with distanceSq := some (distSq q s₀.position) } = s := by
          injection hf
        rw [← hse]
        exact ⟨rfl, hdist⟩
      · rw [if_neg hdist] at hf
        exact absurd hf (by simp)

/-- Demo shard store for the C1 witness: one shard starting at time step 0
with interval size 1, holding trajectory 7 with a single sample at
`(4, 0, 0)`. -/
def c1Shards : List Shard := [⟨0, 1, [⟨7, 1, [some ⟨4, 0, 0⟩]⟩]⟩]

/-- Demo table covering `c1Shards` at time step 0: the sample's cell is
`(0,0,0)` (Morton key 0), whose single entry holds trajectory id 7. -/
def c1Table : SpatialHashTable :=
  { header := { magic := 0x54534854, version := 1, timeStep := 0,
                cellSize := 100, bboxMin := ⟨0, 0, 0⟩, bboxMax := ⟨100, 100, 100⟩,
                numEntries := 1, numTrajectoryIds := 1 },
    entries := [⟨0, 0, 1⟩], trajectoryIds := [7], sourceFile := none }

/-- Witness for C1: the theorem applied to the demo store and table, query
at the origin with radius 10 at time step 0. -/
theorem c1_queryRadius_exact_witness :
    (0 ≤ (10 : ℚ)) ∧ smallNumber < c1Table.header.cellSize ∧
    c1Shards ≠ [] ∧ tableCoversAt c1Table c1Shards 0 = true ∧
    ((∀ id, id ∈ (queryRadiusWithDistanceCheck c1Shards (some c1Table)
          ⟨0, 0, 0⟩ 10 0).map Prod.fst ↔
        ∃ s ∈ samplesForId c1Shards id 0 0,
          distSq ⟨0, 0, 0⟩ s.position ≤ 10 ^ 2) ∧
      ((queryRadiusWithDistanceCheck c1Shards (some c1Table)
          ⟨0, 0, 0⟩ 10 0).map Prod.fst).Nodup ∧
      ∀ pr ∈ queryRadiusWithDistanceCheck c1Shards (some c1Table)
          ⟨0, 0, 0⟩ 10 0, ∀ s ∈ pr.2,
        s.distanceSq = some (distSq ⟨0, 0, 0⟩ s.position) ∧
        distSq ⟨0, 0, 0⟩ s.position ≤ 10 ^ 2) :=
  ⟨by decide, of_decide_eq_true (by with_unfolding_all rfl),
   by unfold c1Shards; exact List.cons_ne_nil _ _,
   of_decide_eq_true (by with_unfolding_all rfl),
   c1_queryRadius_exact c1Shards c1Table ⟨0, 0, 0⟩ 10 0 (by decide)
     (of_decide_eq_true (by with_unfolding_all rfl))
     (by unfold c1Shards; exact List.cons_ne_nil _ _)
     (of_decide_eq_true (by with_unfolding_all rfl))⟩

/-! ### Dual-radius partition (claim C8) -/

/-- Sample list a query result holds for one trajectory id (empty when the
id is absent). -/
def samplesOf (m : SampleMap) (id : ℕ) : List SamplePoint :=
  (lookupId m id).getD []

theorem annotateWithin_eq_some {q : Vec3} {r : ℚ} {s s' : SamplePoint} :
    annotateWithin q r s = some s' ↔
      distSq q s.position ≤ r ^ 2 ∧
      s' = { s with distanceSq := some (distSq q s.position) } := by
  unfold annotateWithin
  by_cases h : distSq q s.position ≤ r ^ 2
  · rw [if_pos h]
    constructor
    · intro he
      refine ⟨h, ?_⟩
      have := he
      injection this with h2
      exact h2.symm
    · rintro ⟨-, rfl⟩
      rfl
  · rw [if_neg h]
    constructor
    · intro he
      exact absurd he (by simp)
    · rintro ⟨hc, -⟩
      exact absurd hc h

theorem annotateOuterOnly_eq_some {q : Vec3} {rI rO : ℚ} {s s' : SamplePoint} :
    annotateOuterOnly q rI rO s = some s' ↔
      rI ^ 2 < distSq q s.position ∧ distSq q s.position ≤ rO ^ 2 ∧
      s' = { s with distanceSq := some (distSq q s.position) } := by
  unfold annotateOuterOnly
  by_cases h1 : distSq q s.position ≤ rI ^ 2
  · rw [if_pos h1]
    constructor
    · intro he
      exact absurd he (by simp)
    · rintro ⟨hlt, -, -⟩
      exact absurd h1 (not_le.mpr hlt)
  · rw [if_neg h1]
    by_cases h2 : distSq q s.position ≤ rO ^ 2
    · rw [if_pos h2]
      constructor
      · intro he
        refine ⟨not_le.mp h1, h2, ?_⟩
        injection he with h3
        exact h3.symm
      · rintro ⟨-, -, rfl⟩
        rfl
    · rw [if_neg h2]
      constructor
      · intro he
        exact absurd he (by simp)
      · rintro ⟨-, hc, -⟩
        exact absurd hc h2

/-- Characterisation of one filtered output over fetched data satisfying the
fetch specification. -/
theorem mem_samplesOf_keepPairs {g : SamplePoint → Option SamplePoint}
    {data : SampleMap} {cands : List ℕ} {F : ℕ → List SamplePoint}
    (hkeys : data.map Prod.fst = dedupFirst cands)
    (hnd : (data.map Prod.fst).Nodup)
    (hlook : ∀ id ∈ cands, lookupId data id = some (F id))
    (id : ℕ) (s : SamplePoint) :
    s ∈ samplesOf (keepPairs g data) id ↔
      id ∈ cands ∧ s ∈ (F id).filterMap g := by
  unfold samplesOf
  constructor
  · intro hs
    cases hl : lookupId (keepPairs g data) id with
    | none =>
      rw [hl] at hs
      simp at hs
    | some ss =>
      rw [hl] at hs
      simp only [Option.getD_some] at hs
      have hmem := lookupId_mem hl
      obtain ⟨ss₀, hmem₀, hval, hne⟩ := mem_keepPairs.mp hmem
      have hidc : id ∈ cands := by
        have hk : id ∈ data.map Prod.fst := by
          rw [List.mem_map]
          exact ⟨(id, ss₀), hmem₀, rfl⟩
        rw [hkeys, mem_dedupFirst] at hk
        exact hk
      have hl0 : lookupId data id = some ss₀ := mem_lookupId hnd hmem₀
      have hl1 := hlook id hidc
      rw [hl0] at hl1
      have hF : ss₀ = F id := by injection hl1
      refine ⟨hidc, ?_⟩
      rw [← hF]
      simp only at hval
      rw [← hval]
      exact hs
  · rintro ⟨hidc, hs⟩
    have hl0 : lookupId data id = some (F id) := hlook id hidc
    have hmem₀ : (id, F id) ∈ data := lookupId_mem hl0
    have hne : (F id).filterMap g ≠ [] := List.ne_nil_of_mem hs
    have hkp : (id, (F id).filterMap g) ∈ keepPairs g data :=
      mem_keepPairs.mpr ⟨F id, hmem₀, rfl, hne⟩
    have hndk : ((keepPairs g data).map Prod.fst).Nodup :=
      hnd.sublist (keys_keepPairs_sublist _ _)
    rw [mem_lookupId hndk hkp]
    simpa using hs

/-- C8 (amended): `QueryDualRadiusWithDistanceCheck` fails with both output
arrays empty whenever `rInner > rOuter`; otherwise, provided additionally
`0 ≤ rInner`, for every trajectory the inner result holds exactly the
samples with distance ≤ `rInner` and the outer-only result exactly those
with `rInner <` distance `≤ rOuter` (each annotated with its exact
distance), the two sets are disjoint, and their union equals the
single-radius result at radius `rOuter`.  The original claim omitted the
`0 ≤ rInner` proviso, under which the code's squared-radius comparison
diverges from the claimed distance partition. -/
theorem c8_dualRadius_partition (shards : List Shard) (t : SpatialHashTable)
    (q : Vec3) (rI rO : ℚ) (ts : ℤ)
    (hrI : 0 ≤ rI) (hInOut : rI ≤ rO)
    (hcs : smallNumber < t.header.cellSize) (hsh : shards ≠ [])
    (hcov : tableCoversAt t shards ts = true) :
    (∀ a b : ℚ, b < a →
      queryDualRadiusWithDistanceCheck shards (some t) q a b ts = ([], [])) ∧
    (∀ id s, s ∈ samplesOf
        (queryDualRadiusWithDistanceCheck shards (some t) q rI rO ts).1 id ↔
      ∃ s₀ ∈ samplesForId shards id ts ts, distSq q s₀.position ≤ rI ^ 2 ∧
        s = { s₀ with distanceSq := some (distSq q s₀.position) }) ∧
    (∀ id s, s ∈ samplesOf
        (queryDualRadiusWithDistanceCheck shards (some t) q rI rO ts).2 id ↔
      ∃ s₀ ∈ samplesForId shards id ts ts, rI ^ 2 < distSq q s₀.position ∧
        distSq q s₀.position ≤ rO ^ 2 ∧
        s = { s₀ with distanceSq := some (distSq q s₀.position) }) ∧
    (∀ id s, s ∈ samplesOf
        (queryDualRadiusWithDistanceCheck shards (some t) q rI rO ts).1 id →
      s ∉ samplesOf
        (queryDualRadiusWithDistanceCheck shards (some t) q rI rO ts).2 id) ∧
    (∀ id s, (s ∈ samplesOf
        (queryDualRadiusWithDistanceCheck shards (some t) q rI rO ts).1 id ∨
      s ∈ samplesOf
        (queryDualRadiusWithDistanceCheck shards (some t) q rI rO ts).2 id) ↔
      s ∈ samplesOf (queryRadiusWithDistanceCheck shards (some t) q rO ts) id) := by
  have hrO : 0 ≤ rO := le_trans hrI hInOut
  have hsq : rI ^ 2 ≤ rO ^ 2 := by nlinarith
  have hcand : ∀ (id : ℕ) (s : SamplePoint), s ∈ samplesForId shards id ts ts →
      distSq q s.position ≤ rO ^ 2 → id ∈ queryTrajectoryIdsInRadius t q rO := by
    intro id s hs hd
    obtain ⟨sh, hshm, e, he, hid, hse⟩ := mem_samplesForId hs
    have hcell := tableCoversAt_spec hcov sh hshm e he s hse
    rw [hid] at hcell
    exact mem_queryIds_of_sample hcs hrO hd hcell
  have partA : ∀ a b : ℚ, b < a →
      queryDualRadiusWithDistanceCheck shards (some t) q a b ts = ([], []) := by
    intro a b hab
    unfold queryDualRadiusWithDistanceCheck
    rw [if_pos hab]
  refine ⟨partA, ?_⟩
  have hqd : queryDualRadiusWithDistanceCheck shards (some t) q rI rO ts =
      if (queryTrajectoryIdsInRadius t q rO).isEmpty
      then (([], []) : SampleMap × SampleMap)
      else match loadTrajectorySamplesForIds shards
          (queryTrajectoryIdsInRadius t q rO) ts ts with
        | none => ([], [])
        | some data => filterByDualRadius q rI rO data := by
    unfold queryDualRadiusWithDistanceCheck
    rw [if_neg (not_lt.mpr hInOut)]
  have hqr : queryRadiusWithDistanceCheck shards (some t) q rO ts =
      if (queryTrajectoryIdsInRadius t q rO).isEmpty then ([] : SampleMap)
      else match loadTrajectorySamplesForIds shards
          (queryTrajectoryIdsInRadius t q rO) ts ts with
        | none => []
        | some data => filterByDistance q rO data := rfl
  by_cases hc : (queryTrajectoryIdsInRadius t q rO).isEmpty
  · have hcnil := List.isEmpty_iff.mp hc
    rw [hqd, hqr, if_pos hc, if_pos hc]
    have hnoRHS : ∀ (id : ℕ) (s₀ : SamplePoint),
        s₀ ∈ samplesForId shards id ts ts →
        ¬ distSq q s₀.position ≤ rO ^ 2 := by
      intro id s₀ hs₀ hd
      have hmem := hcand id s₀ hs₀ hd
      rw [hcnil] at hmem
      simp at hmem
    refine ⟨?_, ?_, ?_, ?_⟩
    · intro id s
      constructor
      · intro hs
        exact absurd hs (by simp [samplesOf, lookupId])
      · rintro ⟨s₀, hs₀, hd, -⟩
        exact absurd (le_trans hd hsq) (hnoRHS id s₀ hs₀)
    · intro id s
      constructor
      · intro hs
        exact absurd hs (by simp [samplesOf, lookupId])
      · rintro ⟨s₀, hs₀, -, hd, -⟩
        exact absurd hd (hnoRHS id s₀ hs₀)
    · intro id s hs
      exact absurd hs (by simp [samplesOf, lookupId])
    · intro id s
      constructor
      · rintro (hs | hs) <;> exact absurd hs (by simp [samplesOf, lookupId])
      · intro hs
        exact absurd hs (by simp [samplesOf, lookupId])
  · have hload : loadTrajectorySamplesForIds shards
        (queryTrajectoryIdsInRadius t q rO) ts ts =
        some (shards.foldl (processShardForIds
            (queryTrajectoryIdsInRadius t q rO) ts ts)
          (initSampleMap (queryTrajectoryIdsInRadius t q rO))) := by
      unfold loadTrajectorySamplesForIds
      rw [if_neg hc, if_neg (fun h => hsh (List.isEmpty_iff.mp h))]
    obtain ⟨hkeys, hnd, hlook⟩ := loadTrajectorySamplesForIds_spec hload
    rw [hqd, hqr, if_neg hc, if_neg hc, hload]
    set D := shards.foldl (processShardForIds
        (queryTrajectoryIdsInRadius t q rO) ts ts)
      (initSampleMap (queryTrajectoryIdsInRadius t q rO)) with hD
    show (∀ id s, s ∈ samplesOf (filterByDualRadius q rI rO D).1 id ↔ _) ∧
      (∀ id s, s ∈ samplesOf (filterByDualRadius q rI rO D).2 id ↔ _) ∧
      (∀ id s, s ∈ samplesOf (filterByDualRadius q rI rO D).1 id →
        s ∉ samplesOf (filterByDualRadius q rI rO D).2 id) ∧
      (∀ id s, (s ∈ samplesOf (filterByDualRadius q rI rO D).1 id ∨
        s ∈ samplesOf (filterByDualRadius q rI rO D).2 id) ↔
        s ∈ samplesOf (filterByDistance q rO D) id)
    have hp1 : (filterByDualRadius q rI rO D).1 =
        keepPairs (annotateWithin q rI) D := rfl
    have hp2 : (filterByDualRadius q rI rO D).2 =
        keepPairs (annotateOuterOnly q rI rO) D := rfl
    have hpO : filterByDistance q rO D =
        keepPairs (annotateWithin q rO) D := rfl
    rw [hp1, hp2, hpO]
    have hcore1 := fun (id : ℕ) (s : SamplePoint) =>
      mem_samplesOf_keepPairs (g := annotateWithin q rI) hkeys hnd hlook id s
    have hcore2 := fun (id : ℕ) (s : SamplePoint) =>
      mem_samplesOf_keepPairs (g := annotateOuterOnly q rI rO) hkeys hnd hlook id s
    have hcoreO := fun (id : ℕ) (s : SamplePoint) =>
      mem_samplesOf_keepPairs (g := annotateWithin q rO) hkeys hnd hlook id s
    refine ⟨?_, ?_, ?_, ?_⟩
    · intro id s
      constructor
      · intro hs
        obtain ⟨-, hm⟩ := (hcore1 id s).mp hs
        obtain ⟨s₀, hs₀, hg⟩ := List.mem_filterMap.mp hm
        obtain ⟨hd, hse⟩ := annotateWithin_eq_some.mp hg
        exact ⟨s₀, hs₀, hd, hse⟩
      · rintro ⟨s₀, hs₀, hd, hse⟩
        exact (hcore1 id s).mpr ⟨hcand id s₀ hs₀ (le_trans hd hsq),
          List.mem_filterMap.mpr ⟨s₀, hs₀, annotateWithin_eq_some.mpr ⟨hd, hse⟩⟩⟩
    · intro id s
      constructor
      · intro hs
        obtain ⟨-, hm⟩ := (hcore2 id s).mp hs
        obtain ⟨s₀, hs₀, hg⟩ := List.mem_filterMap.mp hm
        obtain ⟨hlt, hd, hse⟩ := annotateOuterOnly_eq_some.mp hg
        exact ⟨s₀, hs₀, hlt, hd, hse⟩
      · rintro ⟨s₀, hs₀, hlt, hd, hse⟩
        exact (hcore2 id s).mpr ⟨hcand id s₀ hs₀ hd,
          List.mem_filterMap.mpr ⟨s₀, hs₀,
            annotateOuterOnly_eq_some.mpr ⟨hlt, hd, hse⟩⟩⟩
    · intro id s hs1 hs2
      obtain ⟨-, hm1⟩ := (hcore1 id s).mp hs1
      obtain ⟨-, hm2⟩ := (hcore2 id s).mp hs2
      obtain ⟨s₀, hs₀, hg1⟩ := List.mem_filterMap.mp hm1
      obtain ⟨s₁, hs₁, hg2⟩ := List.mem_filterMap.mp hm2
      obtain ⟨hd0, hse0⟩ := annotateWithin_eq_some.mp hg1
      obtain ⟨hlt1, hd1, hse1⟩ := annotateOuterOnly_eq_some.mp hg2
      have hpos0 : s.position = s₀.position := by rw [hse0]
      have hpos1 : s.position = s₁.position := by rw [hse1]
      have heq : s₀.position = s₁.position := by rw [← hpos0, hpos1]
      rw [heq] at hd0
      linarith
    · intro id s
      constructor
      · rintro (hs | hs)
        · obtain ⟨hid, hm⟩ := (hcore1 id s).mp hs
          obtain ⟨s₀, hs₀, hg⟩ := List.mem_filterMap.mp hm
          obtain ⟨hd, hse⟩ := annotateWithin_eq_some.mp hg
          exact (hcoreO id s).mpr ⟨hid, List.mem_filterMap.mpr ⟨s₀, hs₀,
            annotateWithin_eq_some.mpr ⟨le_trans hd hsq, hse⟩⟩⟩
        · obtain ⟨hid, hm⟩ := (hcore2 id s).mp hs
          obtain ⟨s₀, hs₀, hg⟩ := List.mem_filterMap.mp hm
          obtain ⟨hlt, hd, hse⟩ := annotateOuterOnly_eq_some.mp hg
          exact (hcoreO id s).mpr ⟨hid, List.mem_filterMap.mpr ⟨s₀, hs₀,
            annotateWithin_eq_some.mpr ⟨hd, hse⟩⟩⟩
      · intro hs
        obtain ⟨hid, hm⟩ := (hcoreO id s).mp hs
        obtain ⟨s₀, hs₀, hg⟩ := List.mem_filterMap.mp hm
        obtain ⟨hd, hse⟩ := annotateWithin_eq_some.mp hg
        by_cases hin : distSq q s₀.position ≤ rI ^ 2
        · exact Or.inl ((hcore1 id s).mpr ⟨hid, List.mem_filterMap.mpr
            ⟨s₀, hs₀, annotateWithin_eq_some.mpr ⟨hin, hse⟩⟩⟩)
        · exact Or.inr ((hcore2 id s).mpr ⟨hid, List.mem_filterMap.mpr
            ⟨s₀, hs₀, annotateOuterOnly_eq_some.mpr
              ⟨not_le.mp hin, hd, hse⟩⟩⟩)

/-- Witness for C8: the theorem applied to the demo store and table with
`rInner = 5`, `rOuter = 10` at time step 0. -/
theorem c8_dualRadius_partition_witness :
    (0 ≤ (5 : ℚ)) ∧ ((5 : ℚ) ≤ 10) ∧ smallNumber < c1Table.header.cellSize ∧
    c1Shards ≠ [] ∧ tableCoversAt c1Table c1Shards 0 = true ∧
    ((∀ a b : ℚ, b < a →
        queryDualRadiusWithDistanceCheck c1Shards (some c1Table) ⟨0, 0, 0⟩
          a b 0 = ([], [])) ∧
      (∀ id s, s ∈ samplesOf
          (queryDualRadiusWithDistanceCheck c1Shards (some c1Table) ⟨0, 0, 0⟩
            5 10 0).1 id ↔
        ∃ s₀ ∈ samplesForId c1Shards id 0 0,
          distSq ⟨0, 0, 0⟩ s₀.position ≤ 5 ^ 2 ∧
          s = { s₀ with distanceSq := some (distSq ⟨0, 0, 0⟩ s₀.position) }) ∧
      (∀ id s, s ∈ samplesOf
          (queryDualRadiusWithDistanceCheck c1Shards (some c1Table) ⟨0, 0, 0⟩
            5 10 0).2 id ↔
        ∃ s₀ ∈ samplesForId c1Shards id 0 0,
          (5 : ℚ) ^ 2 < distSq ⟨0, 0, 0⟩ s₀.position ∧
          distSq ⟨0, 0, 0⟩ s₀.position ≤ 10 ^ 2 ∧
          s = { s₀ with distanceSq := some (distSq ⟨0, 0, 0⟩ s₀.position) }) ∧
      (∀ id s, s ∈ samplesOf
          (queryDualRadiusWithDistanceCheck c1Shards (some c1Table) ⟨0, 0, 0⟩
            5 10 0).1 id →
        s ∉ samplesOf
          (queryDualRadiusWithDistanceCheck c1Shards (some c1Table) ⟨0, 0, 0⟩
            5 10 0).2 id) ∧
      (∀ id s, (s ∈ samplesOf
          (queryDualRadiusWithDistanceCheck c1Shards (some c1Table) ⟨0, 0, 0⟩
            5 10 0).1 id ∨
        s ∈ samplesOf
          (queryDualRadiusWithDistanceCheck c1Shards (some c1Table) ⟨0, 0, 0⟩
            5 10 0).2 id) ↔
        s ∈ samplesOf (queryRadiusWithDistanceCheck c1Shards (some c1Table)
          ⟨0, 0, 0⟩ 10 0) id)) :=
  ⟨by decide, by decide, of_decide_eq_true (by with_unfolding_all rfl),
   by unfold c1Shards; exact List.cons_ne_nil _ _,
   of_decide_eq_true (by with_unfolding_all rfl),
   c8_dualRadius_partition c1Shards c1Table ⟨0, 0, 0⟩ 5 10 0 (by decide)
     (by decide) (of_decide_eq_true (by with_unfolding_all rfl))
     (by unfold c1Shards; exact List.cons_ne_nil _ _)
     (of_decide_eq_true (by with_unfolding_all rfl))⟩

/-- C8 counterexample for the original claim: with `rInner = −5`,
`rOuter = 100` the validation `rInner > rOuter` passes, and the code
compares squared distances against `rInner² = 25`, so the sample of
trajectory 7 at true distance 4 lands in the inner result — yet no sample
has distance ≤ −5 (in the squared embedding, distance ≤ `rI` reads
`0 ≤ rI ∧ distSq ≤ rI²`), so the claimed inner set is empty. -/
theorem c8_counterexample :
    ((-5 : ℚ) ≤ 100) ∧
    (queryDualRadiusWithDistanceCheck c1Shards (some c1Table) ⟨0, 0, 0⟩
      (-5) 100 0).1 = [(7, [⟨⟨4, 0, 0⟩, 0, some 16⟩])] ∧
    ∀ s : SamplePoint, ¬ (0 ≤ (-5 : ℚ) ∧
      distSq ⟨0, 0, 0⟩ s.position ≤ (-5 : ℚ) ^ 2) :=
  ⟨by decide, of_decide_eq_true (by with_unfolding_all rfl),
   fun s h => absurd h.1 (by norm_num)⟩

/-! ### Mode C: entry-exit extension (`ExtendTrajectorySamples` /
`QueryTrajectoryRadiusOverTimeRange`, claim C7).  The per-sample test
`Sample.Distance <= Radius` on true distances is embedded on squared
distances as `0 ≤ r ∧ distSq ≤ r²`; the `FLT_MAX` sentinel (`none`) never
passes the test. -/

/-- `Sample.Distance <= Radius` in the squared embedding. -/
def withinB (r : ℚ) (s : SamplePoint) : Bool :=
  match s.distanceSq with
  | some d2 => decide (0 ≤ r) && decide (d2 ≤ r ^ 2)
  | none => false

/-- The `WithinRadiusRanges` loop of `ExtendTrajectorySamples`: `i` is the
loop counter, `rangeStart` the `RangeStart` sentinel (`-1` = `none`),
including the trailing `if (RangeStart != -1)` flush. -/
def withinRangesGo (r : ℚ) (l : List SamplePoint) (i : ℕ)
    (rangeStart : Option ℕ) : List (ℕ × ℕ) :=
  match l with
  | [] =>
    match rangeStart with
    | some st => [(st, i - 1)]
    | none => []
  | s :: rest =>
    match rangeStart with
    | none =>
      if withinB r s then withinRangesGo r rest (i + 1) (some i)
      else withinRangesGo r rest (i + 1) none
    | some st =>
      if withinB r s then withinRangesGo r rest (i + 1) (some st)
      else (st, i - 1) :: withinRangesGo r rest (i + 1) none

def withinRanges (r : ℚ) (l : List SamplePoint) : List (ℕ × ℕ) :=
  withinRangesGo r l 0 none

/-- Per-trajectory body of `ExtendTrajectorySamples`: skip empty lists and
trajectories with no in-radius sample, otherwise keep the inclusive index
slice `[Ranges[0].Key, Ranges.Last().Value]`. -/
def extendPair (r : ℚ) (p : ℕ × List SamplePoint) :
    Option (ℕ × List SamplePoint) :=
  if p.2.isEmpty then none
  else
    match withinRanges r p.2 with
    | [] => none
    | first :: rest =>
      some (p.1, (p.2.take ((rest.getLastD first).2 + 1)).drop first.1)

/-- `USpatialHashTableManager::ExtendTrajectorySamples`. -/
def extendTrajectorySamples (r : ℚ) (m : SampleMap) : SampleMap :=
  m.filterMap (extendPair r)

/-- Reference form: index of the first in-radius sample. -/
def firstWithinIdx (r : ℚ) (l : List SamplePoint) : Option ℕ :=
  match l with
  | [] => none
  | s :: rest =>
    if withinB r s then some 0 else (firstWithinIdx r rest).map (· + 1)

/-- Reference form: index of the last in-radius sample. -/
def lastWithinIdx (r : ℚ) (l : List SamplePoint) : Option ℕ :=
  match l with
  | [] => none
  | s :: rest =>
    match lastWithinIdx r rest with
    | some j => some (j + 1)
    | none => if withinB r s then some 0 else none

theorem go_some_head (r : ℚ) :
    ∀ (l : List SamplePoint) (i st : ℕ),
      ∃ e rs, withinRangesGo r l i (some st) = (st, e) :: rs := by
  intro l
  induction l with
  | nil =>
    intro i st
    exact ⟨i - 1, [], rfl⟩
  | cons s rest ih =>
    intro i st
    show ∃ e rs,
      (if withinB r s then withinRangesGo r rest (i + 1) (some st)
       else (st, i - 1) :: withinRangesGo r rest (i + 1) none) = (st, e) :: rs
    by_cases hw : withinB r s
    · rw [if_pos hw]
      exact ih (i + 1) st
    · rw [if_neg hw]
      exact ⟨i - 1, withinRangesGo r rest (i + 1) none, rfl⟩

theorem go_none_eq_nil_iff (r : ℚ) :
    ∀ (l : List SamplePoint) (i : ℕ),
      withinRangesGo r l i none = [] ↔ firstWithinIdx r l = none := by
  intro l
  induction l with
  | nil =>
    intro i
    simp [withinRangesGo, firstWithinIdx]
  | cons s rest ih =>
    intro i
    unfold withinRangesGo firstWithinIdx
    by_cases hw : withinB r s
    · rw [if_pos hw, if_pos hw]
      obtain ⟨e, rs, hgo⟩ := go_some_head r rest (i + 1) i
      rw [hgo]
      simp
    · rw [if_neg hw, if_neg hw]
      rw [ih (i + 1)]
      cases hf : firstWithinIdx r rest <;> simp [hf]

theorem go_none_head (r : ℚ) :
    ∀ (l : List SamplePoint) (i : ℕ) (j : ℕ),
      firstWithinIdx r l = some j →
      ∃ e rs, withinRangesGo r l i none = (i + j, e) :: rs := by
  intro l
  induction l with
  | nil =>
    intro i j h
    simp [firstWithinIdx] at h
  | cons s rest ih =>
    intro i j h
    unfold firstWithinIdx at h
    show ∃ e rs,
      (if withinB r s then withinRangesGo r rest (i + 1) (some i)
       else withinRangesGo r rest (i + 1) none) = (i + j, e) :: rs
    by_cases hw : withinB r s
    · rw [if_pos hw] at h
      obtain rfl : (0 : ℕ) = j := by injection h
      rw [if_pos hw]
      obtain ⟨e, rs, hgo⟩ := go_some_head r rest (i + 1) i
      exact ⟨e, rs, by rw [hgo, Nat.add_zero]⟩
    · rw [if_neg hw] at h
      rw [if_neg hw]
      cases hf : firstWithinIdx r rest with
      | none =>
        rw [hf] at h
        simp at h
      | some j' =>
        rw [hf] at h
        have hj : j = j' + 1 := by
          simp at h
          omega
        obtain ⟨e, rs, hgo⟩ := ih (i + 1) j' hf
        refine ⟨e, rs, ?_⟩
        rw [hgo]
        have : i + j = i + 1 + j' := by omega
        rw [this]

theorem go_last (r : ℚ) :
    ∀ (l : List SamplePoint) (i : ℕ),
      (∀ (st : ℕ) (d : ℕ × ℕ),
        ((withinRangesGo r l i (some st)).getLastD d).2 =
          match lastWithinIdx r l with
          | some j => i + j
          | none => i - 1) ∧
      (∀ d : ℕ × ℕ,
        ((withinRangesGo r l i none).getLastD d).2 =
          match lastWithinIdx r l with
          | some j => i + j
          | none => d.2) := by
  intro l
  induction l with
  | nil =>
    intro i
    constructor
    · intro st d
      rfl
    · intro d
      rfl
  | cons s rest ih =>
    intro i
    constructor
    · intro st d
      show ((if withinB r s then withinRangesGo r rest (i + 1) (some st)
          else (st, i - 1) :: withinRangesGo r rest (i + 1) none).getLastD d).2 =
        match lastWithinIdx r (s :: rest) with
        | some j => i + j
        | none => i - 1
      by_cases hw : withinB r s
      · rw [if_pos hw]
        rw [(ih (i + 1)).1 st d]
        show (match lastWithinIdx r rest with
          | some j => i + 1 + j
          | none => i + 1 - 1) = _
        cases hl : lastWithinIdx r rest with
        | some j =>
          show i + 1 + j = match lastWithinIdx r (s :: rest) with
            | some j => i + j
            | none => i - 1
          have : lastWithinIdx r (s :: rest) = some (j + 1) := by
            unfold lastWithinIdx
            rw [hl]
          rw [this]
          show i + 1 + j = i + (j + 1)
          omega
        | none =>
          have : lastWithinIdx r (s :: rest) = some 0 := by
            unfold lastWithinIdx
            rw [hl, if_pos hw]
          rw [this]
          show i + 1 - 1 = i + 0
          omega
      · rw [if_neg hw]
        rw [List.getLastD_cons]
        rw [(ih (i + 1)).2 (st, i - 1)]
        cases hl : lastWithinIdx r rest with
        | some j =>
          have : lastWithinIdx r (s :: rest) = some (j + 1) := by
            unfold lastWithinIdx
            rw [hl]
          rw [this]
          show i + 1 + j = i + (j + 1)
          omega
        | none =>
          have : lastWithinIdx r (s :: rest) = none := by
            unfold lastWithinIdx
            rw [hl, if_neg hw]
          rw [this]
    · intro d
      show ((if withinB r s then withinRangesGo r rest (i + 1) (some i)
          else withinRangesGo r rest (i + 1) none).getLastD d).2 =
        match lastWithinIdx r (s :: rest) with
        | some j => i + j
        | none => d.2
      by_cases hw : withinB r s
      · rw [if_pos hw]
        rw [(ih (i + 1)).1 i d]
        cases hl : lastWithinIdx r rest with
        | some j =>
          have : lastWithinIdx r (s :: rest) = some (j + 1) := by
            unfold lastWithinIdx
            rw [hl]
          rw [this]
          show i + 1 + j = i + (j + 1)
          omega
        | none =>
          have : lastWithinIdx r (s :: rest) = some 0 := by
            unfold lastWithinIdx
            rw [hl, if_pos hw]
          rw [this]
          show i + 1 - 1 = i + 0
          omega
      · rw [if_neg hw]
        rw [(ih (i + 1)).2 d]
        cases hl : lastWithinIdx r rest with
        | some j =>
          have : lastWithinIdx r (s :: rest) = some (j + 1) := by
            unfold lastWithinIdx
            rw [hl]
          rw [this]
          show i + 1 + j = i + (j + 1)
          omega
        | none =>
          have : lastWithinIdx r (s :: rest) = none := by
            unfold lastWithinIdx
            rw [hl, if_neg hw]
          rw [this]

theorem firstWithinIdx_eq_none_iff (r : ℚ) :
    ∀ l : List SamplePoint,
      firstWithinIdx r l = none ↔ ∀ s ∈ l, withinB r s = false := by
  intro l
  induction l with
  | nil => simp [firstWithinIdx]
  | cons s rest ih =>
    unfold firstWithinIdx
    by_cases hw : withinB r s
    · rw [if_pos hw]
      simp [hw]
    · rw [if_neg hw]
      constructor
      · intro h x hx
        have hrest : firstWithinIdx r rest = none := by
          cases hf : firstWithinIdx r rest with
          | none => rfl
          | some j =>
            rw [hf] at h
            exact absurd h (by simp)
        rcases List.mem_cons.mp hx with rfl | hx'
        · exact Bool.eq_false_iff.mpr hw
        · exact (ih.mp hrest) x hx'
      · intro h
        have hrest : firstWithinIdx r rest = none :=
          ih.mpr fun x hx => h x (List.mem_cons_of_mem _ hx)
        rw [hrest]
        rfl

theorem lastWithinIdx_eq_none_iff (r : ℚ) :
    ∀ l : List SamplePoint,
      lastWithinIdx r l = none ↔ ∀ s ∈ l, withinB r s = false := by
  intro l
  induction l with
  | nil => simp [lastWithinIdx]
  | cons s rest ih =>
    unfold lastWithinIdx
    cases hl : lastWithinIdx r rest with
    | some j =>
      show some (j + 1) = none ↔ _
      constructor
      · intro h
        exact absurd h (by simp)
      · intro h
        have hrest : lastWithinIdx r rest = none :=
          ih.mpr fun x hx => h x (List.mem_cons_of_mem _ hx)
        exact Option.noConfusion (hrest.symm.trans hl)
    | none =>
      show (if withinB r s then some 0 else none) = none ↔ _
      by_cases hw : withinB r s
      · rw [if_pos hw]
        constructor
        · intro h
          exact absurd h (by simp)
        · intro h
          exact absurd (h s (List.mem_cons_self _ _)) (by simp [hw])
      · rw [if_neg hw]
        constructor
        · intro _ x hx
          rcases List.mem_cons.mp hx with rfl | hx'
          · exact Bool.eq_false_iff.mpr hw
          · exact (ih.mp hl) x hx'
        · intro _
          rfl

/-- The loop-based range computation picks exactly the slice from the first
in-radius index through the last in-radius index. -/
theorem extendPair_eq (r : ℚ) (p : ℕ × List SamplePoint) :
    extendPair r p =
      match firstWithinIdx r p.2, lastWithinIdx r p.2 with
      | some i, some j => some (p.1, (p.2.take (j + 1)).drop i)
      | some _, none => none
      | none, _ => none := by
  unfold extendPair withinRanges
  by_cases he : p.2.isEmpty
  · rw [if_pos he]
    have hnil : p.2 = [] := List.isEmpty_iff.mp he
    rw [hnil]
    rfl
  · rw [if_neg he]
    cases hw : withinRangesGo r p.2 0 none with
    | nil =>
      have h1 : firstWithinIdx r p.2 = none := (go_none_eq_nil_iff r p.2 0).mp hw
      rw [h1]
    | cons first rest =>
      cases hf : firstWithinIdx r p.2 with
      | none =>
        have := (go_none_eq_nil_iff r p.2 0).mpr hf
        rw [this] at hw
        exact absurd hw (by simp)
      | some i =>
        cases hl : lastWithinIdx r p.2 with
        | none =>
          have hall := (lastWithinIdx_eq_none_iff r p.2).mp hl
          have hfn : firstWithinIdx r p.2 = none :=
            (firstWithinIdx_eq_none_iff r p.2).mpr hall
          rw [hfn] at hf
          exact absurd hf (by simp)
        | some j =>
          obtain ⟨e, rs, hgo⟩ := go_none_head r p.2 0 i hf
          rw [hw] at hgo
          have hfirst : first = (0 + i, e) := by injection hgo with h1 h2
          have hlast := (go_last r p.2 0).2 first
          rw [hw, hl] at hlast
          rw [List.getLastD_cons] at hlast
          show some (p.1, (p.2.take ((rest.getLastD first).2 + 1)).drop first.1) =
            some (p.1, (p.2.take (j + 1)).drop i)
          rw [hlast, hfirst]
          show some (p.1, (p.2.take (0 + j + 1)).drop (0 + i)) = _
          rw [Nat.zero_add, Nat.zero_add]

theorem firstWithinIdx_spec (r : ℚ) :
    ∀ (l : List SamplePoint) (i : ℕ), firstWithinIdx r l = some i →
      (∀ k, k < i → ∀ s, l.get? k = some s → withinB r s = false) ∧
      (∃ s, l.get? i = some s ∧ withinB r s = true) := by
  intro l
  induction l with
  | nil =>
    intro i h
    simp [firstWithinIdx] at h
  | cons s rest ih =>
    intro i h
    unfold firstWithinIdx at h
    by_cases hw : withinB r s
    · rw [if_pos hw] at h
      obtain rfl : (0 : ℕ) = i := by injection h
      refine ⟨fun k hk => absurd hk (by omega), s, rfl, hw⟩
    · rw [if_neg hw] at h
      cases hf : firstWithinIdx r rest with
      | none =>
        rw [hf] at h
        exact absurd h (by simp)
      | some i' =>
        rw [hf] at h
        have h2 : some (i' + 1) = some i := h
        have hi : i = i' + 1 := by
          injection h2 with h3
          omega
        subst hi
        obtain ⟨hbefore, s', hs', hw'⟩ := ih i' hf
        refine ⟨?_, s', hs', hw'⟩
        intro k hk x hx
        cases k with
        | zero =>
          have : x = s := by
            rw [show (s :: rest).get? 0 = some s from rfl] at hx
            injection hx with hv
            exact hv.symm
          rw [this]
          exact Bool.eq_false_iff.mpr hw
        | succ k' =>
          exact hbefore k' (by omega) x hx

theorem lastWithinIdx_spec (r : ℚ) :
    ∀ (l : List SamplePoint) (j : ℕ), lastWithinIdx r l = some j →
      (∃ s, l.get? j = some s ∧ withinB r s = true) ∧
      (∀ k, j < k → ∀ s, l.get? k = some s → withinB r s = false) := by
  intro l
  induction l with
  | nil =>
    intro j h
    simp [lastWithinIdx] at h
  | cons s rest ih =>
    intro j h
    unfold lastWithinIdx at h
    cases hl : lastWithinIdx r rest with
    | some j' =>
      rw [hl] at h
      obtain rfl : j' + 1 = j := by injection h
      obtain ⟨⟨s', hs', hw'⟩, hafter⟩ := ih j' hl
      refine ⟨⟨s', hs', hw'⟩, ?_⟩
      intro k hk x hx
      cases k with
      | zero => omega
      | succ k' =>
        exact hafter k' (by omega) x hx
    | none =>
      rw [hl] at h
      by_cases hw : withinB r s
      · rw [if_pos hw] at h
        obtain rfl : (0 : ℕ) = j := by injection h
        refine ⟨⟨s, rfl, hw⟩, ?_⟩
        intro k hk x hx
        cases k with
        | zero => omega
        | succ k' =>
          have hx' : x ∈ rest := List.get?_mem hx
          exact ((lastWithinIdx_eq_none_iff r rest).mp hl) x hx'
      · rw [if_neg hw] at h
        exact absurd h (by simp)

/-- Candidate-id union of `QueryTrajectoryRadiusOverTimeRange`: per query
sample, query the loaded table of its time step (skipping unloaded steps),
drop the query trajectory itself, collect into a `TSet` (first-occurrence
order). -/
def modeCCandidates (tables : ℤ → Option SpatialHashTable) (qid : ℕ) (r : ℚ)
    (querySamples : List SamplePoint) : List ℕ :=
  dedupFirst ((querySamples.flatMap fun qs =>
    match tables qs.timeStep with
    | none => []
    | some t => queryTrajectoryIdsInRadius t qs.position r).filter
      fun tid => decide ¬(tid = qid))

/-- Distance-annotation pass of `QueryTrajectoryRadiusOverTimeRange`: the
minimum distance to a query sample of equal time step (`FLT_MAX` = `none`
when there is none), squared embedding of the strict-`<` running minimum. -/
def minDistSqAt (querySamples : List SamplePoint) (s : SamplePoint) :
    Option ℚ :=
  querySamples.foldl (fun acc qs =>
    if qs.timeStep = s.timeStep then
      match acc with
      | none => some (distSq qs.position s.position)
      | some d =>
        if distSq qs.position s.position < d
        then some (distSq qs.position s.position) else some d
    else acc) none

/-- `QueryTrajectoryRadiusOverTimeRange` up to (and including) the
distance-annotation pass: range validation, query-trajectory fetch,
candidate collection, candidate fetch, per-sample min-distance annotation.
All failure paths return the empty map (the C++ returns 0 with
`OutResults` reset). -/
def modeCAnnotated (shards : List Shard) (tables : ℤ → Option SpatialHashTable)
    (qid : ℕ) (r : ℚ) (startTS endTS : ℤ) : SampleMap :=
  if startTS > endTS then []
  else match loadTrajectorySamplesForIds shards [qid] startTS endTS with
  | none => []
  | some qdata =>
    match lookupId qdata qid with
    | none => []
    | some querySamples =>
      if querySamples.isEmpty then []
      else if (modeCCandidates tables qid r querySamples).isEmpty then []
      else match loadTrajectorySamplesForIds shards
          (modeCCandidates tables qid r querySamples) startTS endTS with
      | none => []
      | some data =>
        data.map fun p =>
          (p.1, p.2.map fun s =>
            { s with distanceSq := minDistSqAt querySamples s })

/-- `USpatialHashTableManager::QueryTrajectoryRadiusOverTimeRange` (Mode C):
the annotated fetch followed by the entry-exit extension. -/
def queryTrajectoryRadiusOverTimeRange (shards : List Shard)
    (tables : ℤ → Option SpatialHashTable) (qid : ℕ) (r : ℚ)
    (startTS endTS : ℤ) : SampleMap :=
  extendTrajectorySamples r (modeCAnnotated shards tables qid r startTS endTS)

/-- C7: for every trajectory returned by Mode C
(`QueryTrajectoryRadiusOverTimeRange`), the returned sample list is exactly
the contiguous index slice of that trajectory's fetched (distance-annotated)
sample list from the first sample with distance ≤ r through the last sample
with distance ≤ r — including the in-between samples whose distance exceeds
r — and every returned trajectory has at least one sample with distance ≤ r
(trajectories with none are omitted).  `withinB` is the distance test in the
squared embedding. -/
theorem c7_modeC_extension (shards : List Shard)
    (tables : ℤ → Option SpatialHashTable) (qid : ℕ) (r : ℚ)
    (startTS endTS : ℤ) :
    queryTrajectoryRadiusOverTimeRange shards tables qid r startTS endTS =
      extendTrajectorySamples r
        (modeCAnnotated shards tables qid r startTS endTS) ∧
    (∀ pr ∈ queryTrajectoryRadiusOverTimeRange shards tables qid r
        startTS endTS,
      ∃ ss i j,
        (pr.1, ss) ∈ modeCAnnotated shards tables qid r startTS endTS ∧
        i ≤ j ∧ j < ss.length ∧
        pr.2 = (ss.take (j + 1)).drop i ∧
        (∀ k, k < i → ∀ s, ss.get? k = some s → withinB r s = false) ∧
        (∃ s, ss.get? i = some s ∧ withinB r s = true) ∧
        (∃ s, ss.get? j = some s ∧ withinB r s = true) ∧
        (∀ k, j < k → ∀ s, ss.get? k = some s → withinB r s = false)) ∧
    ∀ pr ∈ queryTrajectoryRadiusOverTimeRange shards tables qid r
        startTS endTS,
      ∃ s ∈ pr.2, withinB r s = true := by
  have hmain : ∀ pr ∈ queryTrajectoryRadiusOverTimeRange shards tables qid r
      startTS endTS,
      ∃ ss i j,
        (pr.1, ss) ∈ modeCAnnotated shards tables qid r startTS endTS ∧
        i ≤ j ∧ j < ss.length ∧
        pr.2 = (ss.take (j + 1)).drop i ∧
        (∀ k, k < i → ∀ s, ss.get? k = some s → withinB r s = false) ∧
        (∃ s, ss.get? i = some s ∧ withinB r s = true) ∧
        (∃ s, ss.get? j = some s ∧ withinB r s = true) ∧
        (∀ k, j < k → ∀ s, ss.get? k = some s → withinB r s = false) := by
    intro pr hpr
    unfold queryTrajectoryRadiusOverTimeRange extendTrajectorySamples at hpr
    obtain ⟨p, hp, hep⟩ := List.mem_filterMap.mp hpr
    rw [extendPair_eq] at hep
    cases hf : firstWithinIdx r p.2 with
    | none =>
      rw [hf] at hep
      exact absurd hep (by simp)
    | some i =>
      cases hl : lastWithinIdx r p.2 with
      | none =>
        rw [hf, hl] at hep
        exact absurd hep (by simp)
      | some j =>
        rw [hf, hl] at hep
        have hpr_eq : (p.1, (p.2.take (j + 1)).drop i) = pr := by injection hep
        obtain ⟨hbefore, sF, hsF, hwF⟩ := firstWithinIdx_spec r p.2 i hf
        obtain ⟨⟨sL, hsL, hwL⟩, hafter⟩ := lastWithinIdx_spec r p.2 j hl
        have hjlen : j < p.2.length := (List.get?_eq_some.mp hsL).1
        have hij : i ≤ j := by
          by_contra hc
          push_neg at hc
          have hfa := hbefore j hc sL hsL
          exact absurd (hfa.symm.trans hwL) (by simp)
        refine ⟨p.2, i, j, ?_, hij, hjlen, ?_, hbefore,
          ⟨sF, hsF, hwF⟩, ⟨sL, hsL, hwL⟩, hafter⟩
        · have h1 : pr.1 = p.1 := by rw [← hpr_eq]
          rw [h1]
          exact hp
        · rw [← hpr_eq]
  refine ⟨rfl, hmain, ?_⟩
  intro pr hpr
  obtain ⟨ss, i, j, hmem, hij, hjlen, hslice, hbefore, ⟨sF, hsF, hwF⟩,
    hlast, hafter⟩ := hmain pr hpr
  refine ⟨sF, ?_, hwF⟩
  rw [hslice]
  apply List.get?_mem (n := 0)
  rw [List.get?_drop]
  rw [List.get?_take (by omega : i + 0 < j + 1)]
  rw [Nat.add_zero]
  exact hsF

/-! ### Incremental build, pass 2 (claim C6,
`BuildHashTablesIncrementallyFromShards`).  I/O failure paths (unreadable
shards, failed saves) are outside the model: every parsed shard loads and
every attempted save succeeds. -/

/-- `INT32_MAX` / `INT32_MIN` sentinels used by the batch min/max scan. -/
def int32Max : ℤ := 2147483647

def int32Min : ℤ := -2147483648

/-- Batch minimum time step (`BatchMinTimeStep`). -/
def batchMinTS (batch : List Shard) : ℤ :=
  (batch.map fun sh => sh.startTimeStep).foldl min int32Max

/-- Batch maximum time step (`BatchMaxTimeStep`, end from the header
interval size). -/
def batchMaxTS (batch : List Shard) : ℤ :=
  (batch.map fun sh => sh.startTimeStep + sh.intervalSize - 1).foldl max int32Min

/-- Sample extraction for one batch and one global time step: entries with
`ValidSampleCount == 0` are skipped, NaN positions are skipped,
`GlobalTimeStep = ShardStartTimeStep + LocalTimeStep`. -/
def batchBucket (batch : List Shard) (ts : ℤ) : List (ℕ × Vec3) :=
  batch.flatMap fun sh =>
    sh.entries.flatMap fun e =>
      if e.validSampleCount = 0 then []
      else e.positions.enum.filterMap fun li =>
        match li.2 with
        | none => none
        | some p =>
          if sh.startTimeStep + (li.1 : ℤ) = ts then some (e.trajectoryId, p)
          else none

/-- Pass 2 writes a file for `ts` out of `batch` iff `ts` lies in the
batch's time-step window and its sample bucket is non-empty (the
`Samples.Num() == 0` skip). -/
def writtenInBatch (batch : List Shard) (ts : ℤ) : Bool :=
  decide (batchMinTS batch ≤ ts) && decide (ts ≤ batchMaxTS batch) &&
  !(batchBucket batch ts).isEmpty

/-- Batch splitting (`BatchSize = 3`), fuelled by the list length (each
step consumes at least one shard). -/
def chunksGo (fuel : ℕ) (l : List Shard) : List (List Shard) :=
  match fuel, l with
  | 0, _ => []
  | _, [] => []
  | f + 1, l => l.take 3 :: chunksGo f (l.drop 3)

def chunks3 (l : List Shard) : List (List Shard) := chunksGo l.length l

/-- Whether pass 2 writes a hash-table file for time step `ts`. -/
def writesFileFor (shards : List Shard) (ts : ℤ) : Bool :=
  (chunks3 shards).any fun batch => writtenInBatch batch ts

/-- Whether any shard holds a valid (non-NaN, counted) sample at global
time step `ts`. -/
def hasSampleAt (shards : List Shard) (ts : ℤ) : Bool :=
  shards.any fun sh => sh.entries.any fun e =>
    !(decide (e.validSampleCount = 0)) &&
    (e.positions.enum.any fun li =>
      decide (sh.startTimeStep + (li.1 : ℤ) = ts) && li.2.isSome)

theorem mem_of_mem_chunksGo :
    ∀ (fuel : ℕ) (l : List Shard) (batch : List Shard) (sh : Shard),
      batch ∈ chunksGo fuel l → sh ∈ batch → sh ∈ l := by
  intro fuel
  induction fuel with
  | zero =>
    intro l batch sh hb
    simp [chunksGo] at hb
  | succ f ih =>
    intro l batch sh hb hsh
    cases l with
    | nil => simp [chunksGo] at hb
    | cons x xs =>
      rw [show chunksGo (f + 1) (x :: xs) =
        (x :: xs).take 3 :: chunksGo f ((x :: xs).drop 3) from rfl] at hb
      rcases List.mem_cons.mp hb with rfl | hb'
      · exact (List.take_sublist 3 (x :: xs)).mem hsh
      · exact (List.drop_sublist 3 (x :: xs)).mem (ih _ batch sh hb' hsh)

theorem hasSampleAt_of_bucket_mem {batch : List Shard} {ts : ℤ}
    {shards : List Shard}
    (hsub : ∀ sh ∈ batch, sh ∈ shards)
    (hne : batchBucket batch ts ≠ []) : hasSampleAt shards ts = true := by
  obtain ⟨x, hx⟩ := List.exists_mem_of_ne_nil _ hne
  unfold batchBucket at hx
  rw [List.mem_flatMap] at hx
  obtain ⟨sh, hsh, hx⟩ := hx
  rw [List.mem_flatMap] at hx
  obtain ⟨e, he, hx⟩ := hx
  by_cases hvc : e.validSampleCount = 0
  · rw [if_pos hvc] at hx
    simp at hx
  · rw [if_neg hvc] at hx
    obtain ⟨li, hli, hmap⟩ := List.mem_filterMap.mp hx
    unfold hasSampleAt
    rw [List.any_eq_true]
    refine ⟨sh, hsub sh hsh, ?_⟩
    rw [List.any_eq_true]
    refine ⟨e, he, ?_⟩
    rw [Bool.and_eq_true]
    refine ⟨by simp [hvc], ?_⟩
    rw [List.any_eq_true]
    refine ⟨li, hli, ?_⟩
    cases hp : li.2 with
    | none =>
      rw [hp] at hmap
      simp at hmap
    | some p =>
      rw [hp] at hmap
      have hmap' : (if sh.startTimeStep + (li.1 : ℤ) = ts
          then some (e.trajectoryId, p) else none) = some x := hmap
      by_cases hts : sh.startTimeStep + (li.1 : ℤ) = ts
      · simp [hts]
      · rw [if_neg hts] at hmap'
        exact absurd hmap' (by simp)

/-- C6: a time step in the build range with zero samples after NaN
filtering gets no hash-table file from pass 2; written files are produced
exactly for (and only depend on) time steps that do have samples; a query
whose hash table is not loaded (`GetHashTable` returned null) returns
empty results. -/
theorem c6_empty_timestep_skipped (shards : List Shard) (ts : ℤ)
    (sh2 : List Shard) (q : Vec3) (r : ℚ)
    (h : hasSampleAt shards ts = false) :
    writesFileFor shards ts = false ∧
    (∀ ts' : ℤ, writesFileFor shards ts' = true →
      hasSampleAt shards ts' = true) ∧
    queryRadiusWithDistanceCheck sh2 none q r ts = [] := by
  have hgen : ∀ ts' : ℤ, writesFileFor shards ts' = true →
      hasSampleAt shards ts' = true := by
    intro ts' hw
    unfold writesFileFor at hw
    rw [List.any_eq_true] at hw
    obtain ⟨batch, hbatch, hwb⟩ := hw
    unfold writtenInBatch at hwb
    rw [Bool.and_eq_true, Bool.and_eq_true] at hwb
    have hne : batchBucket batch ts' ≠ [] := by
      intro hnil
      rw [hnil] at hwb
      simp at hwb
    exact hasSampleAt_of_bucket_mem
      (fun sh hsh => mem_of_mem_chunksGo shards.length shards batch sh hbatch hsh)
      hne
  refine ⟨?_, hgen, rfl⟩
  by_cases hw : writesFileFor shards ts
  · rw [hgen ts hw] at h
    exact absurd h (by simp)
  · exact Bool.eq_false_iff.mpr hw

/-- Witness for C6: the demo shard store has samples only at time step 0,
so time step 5 is skipped. -/
theorem c6_empty_timestep_skipped_witness :
    hasSampleAt c1Shards 5 = false ∧
    (writesFileFor c1Shards 5 = false ∧
      (∀ ts' : ℤ, writesFileFor c1Shards ts' = true →
        hasSampleAt c1Shards ts' = true) ∧
      queryRadiusWithDistanceCheck c1Shards none ⟨0, 0, 0⟩ 10 5 = []) :=
  ⟨by decide, c6_empty_timestep_skipped c1Shards 5 c1Shards ⟨0, 0, 0⟩ 10
    (by decide)⟩

/-! ### Loaded-table cache key (claim C4, `FHashTableKey`,
`SpatialHashTableManager.h`).  Floats are carried by their IEEE-754 single
bit patterns and decoded to exact rationals; exponent 255 (Inf/NaN) is
outside the model. -/

/-- Magnitude of an IEEE-754 single from its bit pattern (exponent `e`,
fraction `f`): denormals are `f·2⁻¹⁴⁹`, normals `(2²³+f)·2^(e-150)`. -/
def float32Mag (bits : ℕ) : ℚ :=
  if bits / 2 ^ 23 % 2 ^ 8 = 0 then ((bits % 2 ^ 23 : ℕ) : ℚ) / 2 ^ 149
  else if 150 ≤ bits / 2 ^ 23 % 2 ^ 8 then
    ((2 ^ 23 + bits % 2 ^ 23 : ℕ) : ℚ) * 2 ^ (bits / 2 ^ 23 % 2 ^ 8 - 150)
  else ((2 ^ 23 + bits % 2 ^ 23 : ℕ) : ℚ) / 2 ^ (150 - bits / 2 ^ 23 % 2 ^ 8)

/-- Exact rational value of an IEEE-754 single given its bit pattern. -/
def float32ValQ (bits : ℕ) : ℚ :=
  if bits / 2 ^ 31 % 2 = 1 then -float32Mag bits else float32Mag bits

/-- `FHashTableKey` (`SpatialHashTableManager.h`): the float `CellSize` is
carried as its bit pattern, `TimeStep` is the signed 32-bit time step. -/
structure FHashTableKey where
  cellSizeBits : ℕ
  timeStep : ℤ
deriving DecidableEq, Repr

/-- `CellSizeEpsilon = 0.001f`: the bit pattern of the float nearest to
one thousandth. -/
def cellSizeEpsilonBits : ℕ := 0x3A83126F

/-- `FMath::IsNearlyEqual(A, B, Tol)` = `|A − B| ≤ Tol`. -/
def isNearlyEqual (a b tol : ℚ) : Bool := decide (|a - b| ≤ tol)

/-- `FHashTableKey::operator==`. -/
def hashTableKeyEq (k1 k2 : FHashTableKey) : Bool :=
  isNearlyEqual (float32ValQ k1.cellSizeBits) (float32ValQ k2.cellSizeBits)
    (float32ValQ cellSizeEpsilonBits) && decide (k1.timeStep = k2.timeStep)

/-- 32-bit truncation. -/
def w32 (x : ℕ) : ℕ := x % 2 ^ 32

/-- 32-bit wraparound subtraction. -/
def wsub (a b : ℕ) : ℕ := (a % 2 ^ 32 + 2 ^ 32 - b % 2 ^ 32) % 2 ^ 32

/-- Engine `GetTypeHash(float)`: the bit pattern itself. -/
def getTypeHashFloatBits (bits : ℕ) : ℕ := w32 bits

/-- Engine `GetTypeHash(int32)`: the value cast to `uint32`. -/
def getTypeHashInt32 (t : ℤ) : ℕ := (t % 2 ^ 32).toNat

/-- Engine `HashCombine` (`TypeHash.h`, not part of this repository):
Bob Jenkins' 96-bit mix on `(A + 0x9e3779b9, 0x9e3779b9, C)`, unrolled
with explicit 32-bit wraparound. -/
def hashCombine (a0 c0 : ℕ) : ℕ :=
  w32 (wsub (wsub c0' a7) b6 ^^^ (b6 >>> 15))
where
  b0 : ℕ := 0x9e3779b9
  a1 : ℕ := w32 (a0 + b0)
  a3 : ℕ := w32 (wsub (wsub a1 b0) c0 ^^^ (w32 c0 >>> 13))
  b2 : ℕ := w32 (wsub (wsub b0 c0) a3 ^^^ w32 (a3 <<< 8))
  c2 : ℕ := w32 (wsub (wsub c0 a3) b2 ^^^ (b2 >>> 13))
  a5 : ℕ := w32 (wsub (wsub a3 b2) c2 ^^^ (c2 >>> 12))
  b4 : ℕ := w32 (wsub (wsub b2 c2) a5 ^^^ w32 (a5 <<< 16))
  c4 : ℕ := w32 (wsub (wsub c2 a5) b4 ^^^ (b4 >>> 5))
  a7 : ℕ := w32 (wsub (wsub a5 b4) c4 ^^^ (c4 >>> 3))
  b6 : ℕ := w32 (wsub (wsub b4 c4) a7 ^^^ w32 (a7 <<< 10))
  c0' : ℕ := c4

/-- `GetTypeHash(FHashTableKey)`
(`HashCombine(GetTypeHash(CellSize), GetTypeHash(TimeStep))`). -/
def getTypeHashKey (k : FHashTableKey) : ℕ :=
  hashCombine (getTypeHashFloatBits k.cellSizeBits) (getTypeHashInt32 k.timeStep)

/-- C4 (code bug): the keys `(1.0f, 0)` and `(1.0000001f, 0)` compare equal
under `FHashTableKey::operator==` (their cell sizes differ by `2⁻²³`, far
below the `0.001f` tolerance), yet `GetTypeHash` hashes the raw float bits,
so the two equal keys hash differently — `TMap` may therefore miss a cached
table.  This refutes "the hash function is consistent with this equality". -/
theorem c4_hashTableKey_hash_inconsistent :
    hashTableKeyEq ⟨0x3F800000, 0⟩ ⟨0x3F800001, 0⟩ = true ∧
    getTypeHashKey ⟨0x3F800000, 0⟩ ≠ getTypeHashKey ⟨0x3F800001, 0⟩ :=
  ⟨of_decide_eq_true (by with_unfolding_all rfl), by decide⟩
